import Mathlib

/-!
# Verification of the mlky configuration-tree engine

Shallow embedding of the core of the `mlky` repository
(`src/mlky/configs/`): the value model, the function registry
(`funcs.py`), the builtin type check (`builtins.py`), the `Var`
validation logic (`var.py`), the `Null` sentinel error counter
(`null.py`), the interpolation resolver (`magics.py`), the patch/merge
engine (`sect.py` / `config.py`) and the definitions-application
algorithm (`sect.py` / `var.py`).

Conventions used throughout:
* Python runtime values are modelled by the inductive type `PVal`.
  The mlky `Null` sentinel is `PVal.null`, Python `None` is
  `PVal.none`; Python type objects are `PVal.pyType`, registered
  function objects are `PVal.fnTok`.
* Python dicts are modelled as association lists in insertion order;
  assignment is `upsert` (replace in place if the key exists, append
  otherwise), mirroring CPython dict semantics.
* Raising an exception is modelled with `Except String`, the payload
  being `str(e)`.
* Logging calls are pure no-ops and are not modelled.
-/

set_option autoImplicit false

namespace Mlky

/-- The Python builtin types listed in `var.py::Types`. -/
inductive PyTy where
  | bool | bytes | complex | dict | float | int | list | set | str | tuple
  deriving DecidableEq, Repr

/-- Model of the Python runtime values the config engine manipulates.
`null` is the mlky `Null` sentinel (`null.py`), `none` is Python's
`None`, `pyType` a Python type object (a value of `var.py::Types`),
`fnTok` a registered-function object (a `FunctionType` value as stored
in `funcs.py::Funcs`). Floats are not needed by any claim and are
omitted. -/
inductive PVal where
  | null
  | none
  | bool (b : Bool)
  | int (n : Int)
  | str (s : String)
  | list (xs : List PVal)
  | dict (es : List (String × PVal))
  | pyType (t : PyTy)
  | fnTok (name : String)
  deriving Repr

namespace PVal

mutual

/-- Structural (Boolean) equality on `PVal`. -/
def beq : PVal → PVal → Bool
  | .null, .null => true
  | .none, .none => true
  | .bool a, .bool b => a = b
  | .int a, .int b => a = b
  | .str a, .str b => a = b
  | .list a, .list b => beqList a b
  | .dict a, .dict b => beqDict a b
  | .pyType a, .pyType b => a = b
  | .fnTok a, .fnTok b => a = b
  | _, _ => false

/-- `beq` lifted to lists of values. -/
def beqList : List PVal → List PVal → Bool
  | [], [] => true
  | a :: as, b :: bs => beq a b && beqList as bs
  | _, _ => false

/-- `beq` lifted to dict entry lists. -/
def beqDict : List (String × PVal) → List (String × PVal) → Bool
  | [], [] => true
  | (k, a) :: as, (k', b) :: bs => k = k' && beq a b && beqDict as bs
  | _, _ => false

end

mutual

theorem beq_iff_eq : ∀ a b : PVal, beq a b = true ↔ a = b
  | .null, b => by cases b <;> simp [beq]
  | .none, b => by cases b <;> simp [beq]
  | .bool a, b => by cases b <;> simp [beq]
  | .int a, b => by cases b <;> simp [beq]
  | .str a, b => by cases b <;> simp [beq]
  | .list as, b => by
    cases b with
    | list bs => simpa [beq] using beqList_iff_eq as bs
    | _ => simp [beq]
  | .dict as, b => by
    cases b with
    | dict bs => simpa [beq] using beqDict_iff_eq as bs
    | _ => simp [beq]
  | .pyType a, b => by cases b <;> simp [beq]
  | .fnTok a, b => by cases b <;> simp [beq]

theorem beqList_iff_eq : ∀ as bs : List PVal, beqList as bs = true ↔ as = bs
  | [], bs => by cases bs <;> simp [beqList]
  | a :: as, bs => by
    cases bs with
    | nil => simp [beqList]
    | cons b bs =>
      simp only [beqList, Bool.and_eq_true, List.cons.injEq]
      rw [beq_iff_eq a b, beqList_iff_eq as bs]

theorem beqDict_iff_eq :
    ∀ as bs : List (String × PVal), beqDict as bs = true ↔ as = bs
  | [], bs => by cases bs <;> simp [beqDict]
  | (k, a) :: as, bs => by
    cases bs with
    | nil => simp [beqDict]
    | cons b bs =>
      obtain ⟨k', v'⟩ := b
      simp only [beqDict, Bool.and_eq_true, List.cons.injEq, Prod.mk.injEq,
        decide_eq_true_eq]
      rw [beq_iff_eq a v', beqDict_iff_eq as bs]

end

instance : DecidableEq PVal := fun a b =>
  decidable_of_iff (beq a b = true) (beq_iff_eq a b)

/-- Python truthiness (`bool(x)`): `Null` is falsy (`NullType.__bool__`),
`None`, `False`, `0`, `""`, `[]` and `{}` are falsy, all else truthy. -/
def truthy : PVal → Bool
  | .null => false
  | .none => false
  | .bool b => b
  | .int n => n != 0
  | .str s => s != ""
  | .list xs => !xs.isEmpty
  | .dict es => !es.isEmpty
  | .pyType _ => true
  | .fnTok _ => true

mutual

/-- `repr(x)` for the value model, used by `str()` on containers.
Mirrors CPython's `repr` for the modelled fragment. -/
def pyRepr : PVal → String
  | .null => "Null"
  | .none => "None"
  | .bool b => if b then "True" else "False"
  | .int n => toString n
  | .str s => "'" ++ s ++ "'"
  | .list xs => "[" ++ String.intercalate ", " (pyReprList xs) ++ "]"
  | .dict es => "\x7b" ++ String.intercalate ", " (pyReprDict es) ++ "\x7d"
  | .pyType t => "<class '" ++ reprStr t ++ "'>"
  | .fnTok n => "<function " ++ n ++ ">"

/-- `repr` of each element of a list. -/
def pyReprList : List PVal → List String
  | [] => []
  | x :: xs => pyRepr x :: pyReprList xs

/-- `repr` of each `key: value` entry of a dict. -/
def pyReprDict : List (String × PVal) → List String
  | [] => []
  | (k, v) :: es => ("'" ++ k ++ "': " ++ pyRepr v) :: pyReprDict es

end

/-- `str(x)`: identical to `repr` except on strings (no quotes) and the
`Null` sentinel (`NullType.__str__` returns `"Null"`). -/
def pyStr : PVal → String
  | .str s => s
  | v => pyRepr v

end PVal

/-- Python dict assignment on an insertion-ordered association list:
an existing key keeps its position and gets the new value, a new key is
appended. -/
def upsert {α : Type} (es : List (String × α)) (k : String) (v : α) :
    List (String × α) :=
  match es with
  | [] => [(k, v)]
  | (k', v') :: rest =>
    if k' = k then (k', v) :: rest else (k', v') :: upsert rest k v

/-- First-match association-list lookup (Python dict `[]`/`get`). -/
def alookup {α : Type} (es : List (String × α)) (k : String) : Option α :=
  match es with
  | [] => Option.none
  | (k', v) :: rest => if k' = k then some v else alookup rest k

@[simp] theorem alookup_nil {α : Type} (k : String) :
    alookup ([] : List (String × α)) k = Option.none := rfl

theorem alookup_upsert_self {α : Type} (es : List (String × α)) (k : String) (v : α) :
    alookup (upsert es k v) k = some v := by
  induction es with
  | nil => simp [upsert, alookup]
  | cons e rest ih =>
    obtain ⟨k', v'⟩ := e
    by_cases h : k' = k <;> simp [upsert, alookup, h, ih]

theorem alookup_upsert_ne {α : Type} (es : List (String × α)) (k k' : String) (v : α)
    (h : k ≠ k') : alookup (upsert es k v) k' = alookup es k' := by
  induction es with
  | nil => simp [upsert, alookup, h]
  | cons e rest ih =>
    obtain ⟨k₀, v₀⟩ := e
    by_cases h0 : k₀ = k
    · subst h0
      simp [upsert, alookup, h]
    · by_cases h1 : k₀ = k' <;>
        simp [upsert, alookup, h0, h1, ih, Ne.symm h]

/-! ## `funcs.py` — the function registry

`register` wraps every registered function in `protect`, which calls
the function and converts any raised exception `e` into the return
value `str(e)` (`funcs.py` lines 59-69). A raw Python callable is
modelled as `List PVal → Except String PVal` (it may raise); the
wrapped callable produced by `protect` is total. -/

/-- `funcs.py::register.wrap.protect`: call `func`, catching any
exception and returning its message string instead. -/
def protect (func : List PVal → Except String PVal) (args : List PVal) : PVal :=
  match func args with
  | .ok v => v
  | .error e => .str e

/-- Calling through the registry, as an `Except` computation: the point
of `protect` is that this never produces `.error`. -/
def protectCall (func : List PVal → Except String PVal) (args : List PVal) :
    Except String PVal :=
  .ok (protect func args)

/-! ## `builtins.py::check_dtype` — the builtin type check

`check_dtype(value, dtype)` (`builtins.py` lines 301-343). The `dtype`
argument is a value produced by `var.py::getType`. Note the list
branch: the source calls `check_type`, a name that is not defined in
`builtins.py` (the correctly-recursive version lives only in the older
`functions.py`), so a list dtype raises
`NameError: name 'check_type' is not defined`. The `FunctionType`
branch calls the dtype as a function; registered functions are
`protect`-wrapped, so that call is total and is modelled by the
environment `fns`. -/

/-- `isinstance(value, t)` for the modelled fragment. Python's `bool`
is a subclass of `int`, so `isinstance(True, int)` holds. -/
def isinst : PVal → PyTy → Bool
  | .bool _, .bool => true
  | .bool _, .int => true
  | .int _, .int => true
  | .str _, .str => true
  | .list _, .list => true
  | .dict _, .dict => true
  | _, _ => false

/-- `dtype in Typeless` where
`Typeless = (Null, 'Null', None, 'None', 'any')`; membership is by
equality, and `NullType.__eq__` makes `Null == None` true. -/
def isTypeless : PVal → Bool
  | .null => true
  | .none => true
  | .str s => s = "Null" ∨ s = "None" ∨ s = "any"
  | _ => false

/-- `builtins.py::check_dtype` (the raw function, before the registry
wraps it in `protect`). `fns name value` models calling the registered
function object `name` on `value` (already `protect`-wrapped, hence
total). -/
def check_dtype (fns : String → PVal → PVal) (value dtype : PVal) :
    Except String PVal :=
  if isTypeless dtype then .ok (.bool true)
  else
    match dtype with
    | .list _ =>
      -- `if True not in [check_type(value, t) for t in dtype]:` —
      -- `check_type` is an undefined name in builtins.py
      .error "name 'check_type' is not defined"
    | .fnTok name =>
      let check := fns name value
      if check = .bool false then
        .ok (.str ("Wrong type: Expected " ++ PVal.pyRepr dtype
          ++ " Got " ++ PVal.pyRepr value))
      else .ok check
    | .pyType t =>
      if isinst value t then .ok (.bool true)
      else .ok (.str ("Wrong type: Expected " ++ PVal.pyRepr dtype
        ++ " Got " ++ PVal.pyRepr value))
    | _ => .ok (.str ("Unknown type: " ++ PVal.pyRepr dtype))

/-- The registry entry `'check_dtype'` as callers see it:
`funcs.getRegister('check_dtype')(value, dtype)` goes through
`protect`, so a raised `NameError` comes back as its message string. -/
def registryCheckDtype (fns : String → PVal → PVal) (value dtype : PVal) : PVal :=
  match check_dtype fns value dtype with
  | .ok v => v
  | .error e => .str e

/-- An empty function environment (no registered function objects are
involved in the claims below). -/
def noFns : String → PVal → PVal := fun _ _ => .null

/-! ## `funcs.py` / `var.py` — the `ErrorsDict` and `Var.validate`

`ErrorsDict` (`funcs.py` lines 14-30) is a dict from check names to
results; `reduce` keeps nested `ErrorsDict`s that reduce to something
non-empty and plain `str`/`list` results, and drops everything else
(`True`, `Null`, `False`, ...). -/

/-- An entry of an `ErrorsDict`: either a plain check result or a
nested `ErrorsDict` (from validating a child node). -/
inductive EItem where
  | leaf (v : PVal)
  | nested (es : List (String × EItem))
  deriving Repr

/-- `funcs.py::ErrorsDict.reduce`: keep nested dicts that reduce
non-empty and `str`/`list` results; drop all other values. -/
def reduceE : List (String × EItem) → List (String × EItem)
  | [] => []
  | (k, .nested d) :: rest =>
    let r := reduceE d
    if r.isEmpty then reduceE rest else (k, .nested r) :: reduceE rest
  | (k, .leaf v) :: rest =>
    match v with
    | .str _ => (k, .leaf v) :: reduceE rest
    | .list _ => (k, .leaf v) :: reduceE rest
    | _ => reduceE rest

/-- The state of a `var.py::Var` object. Fields mirror `Var.__init__`
and `Var.__dict__`: schema metadata is stored as Python values
(`PVal`), `_skip_checks` is the internal Boolean flag, and `extra`
holds any further attributes assigned by `applyDefinition`
(`Var.__setattr__` stores unknown keys verbatim in `__dict__`).
The bookkeeping fields `name`, `key`, `parent`, `debug`, `sdesc`,
`ldesc` and `_tmp_value` do not influence any modelled result and are
not represented (`_tmp_value` exists so registered check functions can
read a temporary value; check functions are opaque in this model). The
`example` attribute is spelled `exmpl` because `example` is a Lean
keyword. -/
structure VarM where
  value : PVal := .null
  original : PVal := .null
  default : PVal := .null
  exmpl : PVal := .null
  dtype : PVal := .null
  subtypes : PVal := .null
  required : PVal := .bool false
  missing : PVal := .bool false
  strict : PVal := .bool false
  checks : PVal := .list []
  skipChecks : Bool := false
  extra : List (String × PVal) := []
  deriving Repr, DecidableEq

/-- `var.py::Var.getValue` with its default arguments
(`default=True, example=False`): return `default` when `value` is
`Null`. -/
def VarM.getValue (v : VarM) : PVal :=
  if v.value = .null then v.default else v.value

/-- `var.py::Var.checkType`: skip the dtype check for a non-strict,
non-required, `Null` value, otherwise call the registered
`check_dtype` (which goes through `protect`). -/
def VarM.checkType (fns : String → PVal → PVal) (v : VarM) (value : PVal)
    (strict : Bool) : PVal :=
  let value := if value = .null then v.getValue else value
  if !(v.strict.truthy || strict) && !v.required.truthy && value = .null then
    .bool true
  else
    registryCheckDtype fns value v.dtype

/-- A registered check function as `Var.validate` calls it:
`funcs.getRegister(check)(self, *args, **kwargs)`. Registered
functions are `protect`-wrapped, hence total. -/
def CheckFn : Type := VarM → List PVal → List (String × PVal) → PVal

/-- A check registry: `funcs.py::Funcs` restricted to check functions.
`none` models a key that is not registered. -/
def CheckReg : Type := String → Option CheckFn

/-- `funcs.py::getRegister` followed by the call
`(...)(self, *args, **kwargs)`: an unregistered name returns the
`Null` sentinel, and calling `Null` returns `Null` itself
(`NullType.__call__`). -/
def callCheck (reg : CheckReg) (n : String) (v : VarM) (args : List PVal)
    (kwargs : List (String × PVal)) : PVal :=
  match reg n with
  | some f => f v args kwargs
  | Option.none => .null

/-- Unpacking of one entry of `Var.checks` (`var.py` lines 355-362): a
bare name, or a one-entry dict `{name: args}` where dict args become
kwargs, a string arg becomes a one-element arg list, and a list is
splatted. A non-string scalar check is used as a registry key
directly; its `str()` spelling stands in for the non-string key. A
dict with zero or several entries fails the
`(check, args), = list(check.items())` unpacking; splatting a
non-iterable args value raises `TypeError`. -/
def parseCheck : PVal → Except String (String × List PVal × List (String × PVal))
  | .str n => .ok (n, [], [])
  | .dict [(n, args)] =>
    match args with
    | .dict kw => .ok (n, [], kw)
    | .str s => .ok (n, [.str s], [])
    | .list xs => .ok (n, xs, [])
    | .null => .ok (n, [], [])  -- `*Null` iterates the empty dict
    | _ => .error "argument of type 'int' is not iterable"
  | .dict [] => .error "not enough values to unpack (expected 1, got 0)"
  | .dict _ => .error "too many values to unpack (expected 1)"
  | c => .ok (PVal.pyStr c, [], [])

/-- Iterating `self.checks` (`for check in self.checks`): lists
iterate their items, `Null` iterates nothing (`NullType.__iter__`),
strings iterate characters, dicts iterate keys, scalars raise
`TypeError`. -/
def iterChecks : PVal → Except String (List PVal)
  | .list xs => .ok xs
  | .null => .ok []
  | .str s => .ok (s.toList.map fun c => .str c.toString)
  | .dict es => .ok (es.map fun e => .str e.1)
  | _ => .error "object is not iterable"

/-- The check loop of `Var.validate` (`var.py` lines 355-365):
`errors[check] = funcs.getRegister(check)(self, *args, **kwargs)`
for each declared check, in order, as dict assignments on the
accumulated `ErrorsDict`. -/
def runChecks (reg : CheckReg) (v : VarM) :
    List (String × EItem) → List PVal → Except String (List (String × EItem))
  | acc, [] => .ok acc
  | acc, c :: cs =>
    match parseCheck c with
    | .ok (n, args, kwargs) =>
      runChecks reg v (upsert acc n (.leaf (callCheck reg n v args kwargs))) cs
    | .error e => .error e

/-- `var.py::Var.validate` (lines 309-377). `value0 = Null` means "use
the Var's own value" as in the source default. The trailing loop over
list-valued children is a no-op here: under the default options
(`convertListTypes=True`) a Var's value never contains objects with a
`validate` attribute. -/
def VarM.validate (reg : CheckReg) (fns : String → PVal → PVal) (v : VarM)
    (value0 : PVal) (strict : Bool) :
    Except String (List (String × EItem)) :=
  let value := if value0 = .null then v.getValue else value0
  if v.skipChecks then .ok []
  else if v.missing.truthy && !(v.strict.truthy || strict) then
    .ok (if v.required.truthy then
      [("required",
        .leaf (.str "This key is required to be manually set in the config"))]
    else [])
  else
    match iterChecks v.checks with
    | .ok cs =>
      runChecks reg v
        (upsert [] "type" (.leaf (v.checkType fns value strict))) cs
    | .error e => .error e

/-! ## Supporting lemmas on `ErrorsDict.reduce` and the check loop -/

/-- Keys absent from an errors dict stay absent after `reduce`. -/
theorem alookup_reduceE_none (n : String) :
    ∀ d : List (String × EItem), alookup d n = Option.none →
      alookup (reduceE d) n = Option.none := by
  intro d
  induction d with
  | nil => simp [reduceE]
  | cons e rest ih =>
    obtain ⟨k, item⟩ := e
    intro h
    have hk : ¬(k = n) := by
      intro hkn
      simp [alookup, hkn] at h
    have hrest : alookup rest n = Option.none := by
      simpa [alookup, hk] using h
    cases item with
    | nested d' =>
      by_cases he : (reduceE d').isEmpty <;>
        simp [reduceE, he, alookup, hk, ih hrest]
    | leaf v =>
      cases v <;> simp [reduceE, alookup, hk, ih hrest]

/-- `reduce` drops an entry whose value is the `Null` sentinel
(`Null` is neither a `str` nor a `list`), provided keys are unique
(as they are for dict-built errors). -/
theorem alookup_reduceE_null (n : String) :
    ∀ d : List (String × EItem), (d.map Prod.fst).Nodup →
      alookup d n = some (.leaf .null) →
      alookup (reduceE d) n = Option.none := by
  intro d
  induction d with
  | nil => simp [alookup]
  | cons e rest ih =>
    obtain ⟨k, item⟩ := e
    intro hnd h
    have hnd' : (rest.map Prod.fst).Nodup := (List.nodup_cons.mp hnd).2
    by_cases hk : k = n
    · subst hk
      have hitem : item = .leaf .null := by
        simpa [alookup] using h
      subst hitem
      have hrest : alookup rest k = Option.none := by
        have hkmem : k ∉ rest.map Prod.fst := (List.nodup_cons.mp hnd).1
        clear h hnd ih hnd'
        induction rest with
        | nil => simp [alookup]
        | cons e' rest' ih' =>
          obtain ⟨k', v'⟩ := e'
          simp only [List.map_cons, List.mem_cons] at hkmem
          push_neg at hkmem
          simp [alookup, Ne.symm hkmem.1, ih' hkmem.2]
      simpa [reduceE] using alookup_reduceE_none k rest hrest
    · have hrest : alookup rest n = some (.leaf .null) := by
        simpa [alookup, hk] using h
      cases item with
      | nested d' =>
        by_cases he : (reduceE d').isEmpty <;>
          simp [reduceE, he, alookup, hk, ih hnd' hrest]
      | leaf v =>
        cases v <;> simp [reduceE, alookup, hk, ih hnd' hrest]

/-- The key list of `upsert es k v`: unchanged when `k` is already a
key, otherwise `k` is appended. -/
theorem upsert_map_fst {α : Type} (k : String) (v : α) :
    ∀ es : List (String × α),
      (upsert es k v).map Prod.fst =
        if k ∈ es.map Prod.fst then es.map Prod.fst
        else es.map Prod.fst ++ [k] := by
  intro es
  induction es with
  | nil => simp [upsert]
  | cons e rest ih =>
    obtain ⟨k', v'⟩ := e
    by_cases h : k' = k
    · subst h
      simp [upsert]
    · by_cases hm : k ∈ rest.map Prod.fst <;>
        simp [upsert, h, hm, Ne.symm h, ih]

/-- `upsert` does not create duplicate keys. -/
theorem upsert_keys_nodup {α : Type} (k : String) (v : α)
    (es : List (String × α)) (hnd : (es.map Prod.fst).Nodup) :
    ((upsert es k v).map Prod.fst).Nodup := by
  rw [upsert_map_fst]
  by_cases hm : k ∈ es.map Prod.fst
  · simpa [hm] using hnd
  · rw [if_neg hm]
    refine List.Nodup.append hnd (List.nodup_singleton k) ?_
    intro a ha hk
    rw [List.mem_singleton.mp hk] at ha
    exact hm ha

/-- The check loop preserves key uniqueness of the errors dict. -/
theorem runChecks_nodup (reg : CheckReg) (v : VarM) :
    ∀ (cs : List PVal) (acc d : List (String × EItem)),
      (acc.map Prod.fst).Nodup → runChecks reg v acc cs = .ok d →
      (d.map Prod.fst).Nodup := by
  intro cs
  induction cs with
  | nil =>
    intro acc d hnd h
    simp only [runChecks] at h
    cases h
    exact hnd
  | cons c rest ih =>
    intro acc d hnd h
    simp only [runChecks] at h
    cases hp : parseCheck c with
    | error e => rw [hp] at h; exact absurd h (by simp)
    | ok r =>
      rw [hp] at h
      obtain ⟨n, args, kwargs⟩ := r
      exact ih _ _ (upsert_keys_nodup n _ _ hnd) h

/-- If a check name is unregistered, the check loop records the `Null`
sentinel for it (and succeeds, provided every check entry unpacks). -/
theorem runChecks_unregistered (reg : CheckReg) (v : VarM) (n : String)
    (hreg : reg n = Option.none) :
    ∀ (cs : List PVal) (acc : List (String × EItem)),
      (∀ c ∈ cs, ∃ r, parseCheck c = .ok r) →
      ((∃ c ∈ cs, ∃ r, parseCheck c = .ok r ∧ r.1 = n) ∨
        alookup acc n = some (.leaf .null)) →
      ∃ d, runChecks reg v acc cs = .ok d ∧
        alookup d n = some (.leaf .null) := by
  intro cs
  induction cs with
  | nil =>
    intro acc _ hd
    rcases hd with ⟨c, hc, _⟩ | hacc
    · exact absurd hc (List.not_mem_nil c)
    · exact ⟨acc, rfl, hacc⟩
  | cons c rest ih =>
    intro acc hwf hd
    obtain ⟨r, hr⟩ := hwf c (List.mem_cons_self c rest)
    obtain ⟨m, args, kwargs⟩ := r
    have hwf' : ∀ c' ∈ rest, ∃ r, parseCheck c' = .ok r :=
      fun c' hc' => hwf c' (List.mem_cons_of_mem c hc')
    have hstep : runChecks reg v acc (c :: rest) =
        runChecks reg v
          (upsert acc m (.leaf (callCheck reg m v args kwargs))) rest := by
      simp [runChecks, hr]
    rw [hstep]
    by_cases hm : m = n
    · subst hm
      refine ih _ hwf' (Or.inr ?_)
      simp [callCheck, hreg, alookup_upsert_self]
    · rcases hd with ⟨c', hc', r', hr', hn'⟩ | hacc
      · rcases List.mem_cons.mp hc' with hceq | hcrest
        · subst hceq
          rw [hr] at hr'
          cases hr'
          exact absurd hn' hm
        · exact ih _ hwf' (Or.inl ⟨c', hcrest, r', hr', hn'⟩)
      · refine ih _ hwf' (Or.inr ?_)
        rw [alookup_upsert_ne _ _ _ _ hm]
        exact hacc

/-! ## Claim theorems: C4, C7, C3, C10 -/

/-- C4: for every function registered in the registry and every
argument list, calling it through the registry never propagates an
exception: the call always returns a value, and when the wrapped
function raises `e` the returned value is the message string
`str(e)`; a normal return passes through unchanged
(`funcs.py::register`, lines 59-69). -/
theorem registry_call_never_raises :
    (∀ (f : List PVal → Except String PVal) (args : List PVal),
      ∃ v, protectCall f args = .ok v) ∧
    (∀ (f : List PVal → Except String PVal) (args : List PVal) (e : String),
      f args = .error e → protectCall f args = .ok (.str e)) ∧
    (∀ (f : List PVal → Except String PVal) (args : List PVal) (w : PVal),
      f args = .ok w → protectCall f args = .ok w) := by
  refine ⟨fun f args => ⟨protect f args, rfl⟩, ?_, ?_⟩
  · intro f args e h
    simp [protectCall, protect, h]
  · intro f args w h
    simp [protectCall, protect, h]

/-- Witness for C4 at a concrete always-raising function. -/
theorem registry_call_never_raises_witness :
    protectCall (fun _ => .error "division by zero") [] =
      .ok (.str "division by zero") :=
  registry_call_never_raises.2.1 (fun _ => .error "division by zero") []
    "division by zero" rfl

/-- C7 (code bug): `builtins.py::check_dtype` on a list of dtypes is
supposed to return `True` when the value satisfies at least one dtype
(per its docstring and the older `functions.py::check_type`), but the
list branch calls the undefined name `check_type`, raising a
`NameError`; through the registry's `protect` wrapper the caller
receives the error string instead of `True`. Failing input:
`value = 1`, `dtype = [int, str]` — `1` is an `int`, yet the check
does not return `True`. -/
theorem check_dtype_list_raises_name_error :
    check_dtype noFns (.int 1) (.list [.pyType .int, .pyType .str]) =
      .error "name 'check_type' is not defined" ∧
    registryCheckDtype noFns (.int 1) (.list [.pyType .int, .pyType .str]) =
      .str "name 'check_type' is not defined" ∧
    isinst (.int 1) .int = true ∧
    registryCheckDtype noFns (.int 1) (.list [.pyType .int, .pyType .str]) ≠
      .bool true := by
  refine ⟨rfl, rfl, rfl, ?_⟩
  intro h
  exact absurd h (by simp [registryCheckDtype, check_dtype, isTypeless])

/-- C3: a `Var` with `missing=True` short-circuits `validate` under
non-strict mode (`var.py` lines 345-350): a non-required Var reports
zero errors regardless of its dtype and checks, a required Var reports
exactly the single required-field failure; neither the type check nor
any custom check contributes an entry. -/
theorem validate_missing_short_circuit (reg : CheckReg)
    (fns : String → PVal → PVal) (v : VarM)
    (hmiss : v.missing.truthy = true) (hstrict : v.strict.truthy = false)
    (hskip : v.skipChecks = false) :
    VarM.validate reg fns v .null false =
      .ok (if v.required.truthy then
        [("required",
          .leaf (.str "This key is required to be manually set in the config"))]
      else []) ∧
    (v.required.truthy = false →
      VarM.validate reg fns v .null false = .ok [] ∧ reduceE [] = []) ∧
    (v.required.truthy = true →
      VarM.validate reg fns v .null false =
        .ok [("required",
          .leaf (.str "This key is required to be manually set in the config"))] ∧
      reduceE [("required",
          .leaf (.str "This key is required to be manually set in the config"))] =
        [("required",
          .leaf (.str "This key is required to be manually set in the config"))]) := by
  refine ⟨?_, ?_, ?_⟩
  · simp [VarM.validate, hmiss, hstrict, hskip]
  · intro hreq
    exact ⟨by simp [VarM.validate, hmiss, hstrict, hskip, hreq],
      by simp [reduceE]⟩
  · intro hreq
    exact ⟨by simp [VarM.validate, hmiss, hstrict, hskip, hreq],
      by simp [reduceE]⟩

/-- Witness for C3: a concrete missing, required Var carrying a dtype
and a custom check, evaluated through the theorem. -/
theorem validate_missing_short_circuit_witness :
    VarM.validate (fun _ => Option.none) noFns
      { missing := .bool true, required := .bool true,
        dtype := .pyType .int, checks := .list [.str "oneof"] } .null false =
      .ok [("required",
        .leaf (.str "This key is required to be manually set in the config"))] :=
  ((validate_missing_short_circuit (fun _ => Option.none) noFns
    { missing := .bool true, required := .bool true,
      dtype := .pyType .int, checks := .list [.str "oneof"] }
    rfl rfl rfl).2.2 rfl).1

/-- C10: a declared check whose name is not registered is recorded as
the `Null` sentinel (`getRegister` returns `Null`, calling `Null`
returns `Null`), and `ErrorsDict.reduce` drops that entry because the
sentinel is neither a `str` nor a `list` — so a misspelled check name
silently counts as passing (`funcs.py` lines 14-30 and 87-96,
`var.py` lines 355-365). -/
theorem validate_unregistered_check_silently_passes (reg : CheckReg)
    (fns : String → PVal → PVal) (v : VarM) (n : String) (cs : List PVal)
    (hreg : reg n = Option.none)
    (hskip : v.skipChecks = false)
    (hmiss : v.missing.truthy = false)
    (hchecks : v.checks = .list cs)
    (hwf : ∀ c ∈ cs, ∃ r, parseCheck c = .ok r)
    (hmem : (.str n) ∈ cs) :
    ∃ d, VarM.validate reg fns v .null false = .ok d ∧
      alookup d n = some (.leaf .null) ∧
      alookup (reduceE d) n = Option.none := by
  have hinit :
      VarM.validate reg fns v .null false =
        runChecks reg v
          (upsert [] "type"
            (.leaf (v.checkType fns
              (if (.null : PVal) = .null then v.getValue else .null) false))) cs := by
    simp [VarM.validate, hskip, hmiss, hchecks, iterChecks]
  obtain ⟨d, hrun, hlook⟩ :=
    runChecks_unregistered reg v n hreg cs _ hwf
      (Or.inl ⟨.str n, hmem, (n, [], []), rfl, rfl⟩)
  refine ⟨d, hinit.trans hrun, hlook, ?_⟩
  have hnd : (d.map Prod.fst).Nodup :=
    runChecks_nodup reg v cs _ d (by simp [upsert]) hrun
  exact alookup_reduceE_null n d hnd hlook

/-- Witness for C10: a Var whose single declared check `"oneof"` is
not registered validates to a report whose reduction is empty. -/
theorem validate_unregistered_check_silently_passes_witness :
    ∃ d, VarM.validate (fun _ => Option.none) noFns
        { value := .int 3, checks := .list [.str "oneof"] } .null false =
        .ok d ∧
      alookup d "oneof" = some (.leaf .null) ∧
      alookup (reduceE d) "oneof" = Option.none :=
  validate_unregistered_check_silently_passes (fun _ => Option.none) noFns
    { value := .int 3, checks := .list [.str "oneof"] } "oneof"
    [.str "oneof"] rfl rfl rfl rfl
    (by intro c hc; rw [List.mem_singleton.mp hc]; exact ⟨("oneof", [], []), rfl⟩)
    (List.mem_singleton.mpr rfl)

/-! ## `null.py` — the `Null` sentinel and its runaway-error breaker

`NullErrors` (`null.py` lines 14-37) keeps a timestamp of the last
misuse event and a counter: an event less than one second after the
previous one increments the counter, otherwise the counter resets to
zero; once the counter reaches 1000 a `RuntimeError` is raised.
`NullType.__call__` (lines 160-169) reports such an event and then
returns the sentinel class itself. Timestamps are modelled as rational
seconds (`datetime` differences compared against the literals `1` and
`.1`); the `Logger.warning` side effect is not modelled. -/

/-- The mutable state of `null.py::NullErrors`
(`NullErrors.now`, `NullErrors.err`). -/
structure NEState where
  now : ℚ
  err : ℕ
  deriving DecidableEq, Repr

/-- One `NullErrors(msg, warn)` event at time `t`: update the counter
and timestamp, then raise once the counter has reached 1000. -/
def nullErrors (t : ℚ) (s : NEState) : Except String NEState :=
  let elapse := t - s.now
  let err := if elapse < 1 then s.err + 1 else 0
  if err ≥ 1000 then
    .error
      "Endless loop of errors detected (more than 1k errors per second), killing fault tolerance"
  else .ok ⟨t, err⟩

/-- `null.py::NullType.__call__`: report the misuse event through
`NullErrors`, then return the sentinel class itself (modelled as
`PVal.null`). -/
def nullCall (t : ℚ) (s : NEState) : Except String (NEState × PVal) :=
  match nullErrors t s with
  | .ok s' => .ok (s', .null)
  | .error e => .error e

/-- A sequence of misuse events at the given times, threaded through
the `NullErrors` state; a raise aborts the run. -/
def runNullCalls : List ℚ → NEState → Except String NEState
  | [], s => .ok s
  | t :: ts, s =>
    match nullErrors t s with
    | .ok s' => runNullCalls ts s'
    | .error e => .error e

/-- A burst of events whose consecutive gaps are all below one second
(in particular, any collection of events inside a single one-second
window) keeps incrementing the counter until the breaker trips. -/
theorem runNullCalls_error_of_counter
    : ∀ (ts : List ℚ) (s : NEState),
      List.Chain' (fun a b => b - a < 1) (s.now :: ts) →
      1000 ≤ s.err + ts.length → s.err < 1000 →
      runNullCalls ts s =
        .error
          "Endless loop of errors detected (more than 1k errors per second), killing fault tolerance" := by
  intro ts
  induction ts with
  | nil =>
    intro s _ hge hlt
    simp only [List.length_nil, Nat.add_zero] at hge
    exact absurd hge (Nat.not_le.mpr hlt)
  | cons t rest ih =>
    intro s hchain hge hlt
    have hgap : t - s.now < 1 := (List.chain'_cons.mp hchain).1
    have hchain' : List.Chain' (fun a b => b - a < 1) (t :: rest) :=
      (List.chain'_cons.mp hchain).2
    by_cases hbig : s.err + 1 ≥ 1000
    · simp [runNullCalls, nullErrors, hgap, hbig]
    · have hstep : nullErrors t s = .ok ⟨t, s.err + 1⟩ := by
        simp [nullErrors, hgap, hbig]
      simp only [runNullCalls, hstep]
      exact ih ⟨t, s.err + 1⟩ hchain'
        (by simpa [Nat.add_assoc, Nat.add_comm, Nat.add_left_comm] using hge)
        (Nat.lt_of_not_le hbig)

/-- Consecutive gaps below one second, for a constant time list. -/
theorem chain'_lt_one_replicate (a : ℚ) :
    ∀ n : ℕ, List.Chain' (fun x y => y - x < 1) (List.replicate n a) := by
  intro n
  induction n with
  | zero => simp
  | succ m ih =>
    cases m with
    | zero => simp
    | succ m' =>
      rw [List.replicate_succ]
      refine List.chain'_cons.mpr ⟨?_, ih⟩
      norm_num

/-- C9: calling the `Null` sentinel like a function never raises for
an isolated event (one second or more after the previous one): the
counter resets and the sentinel itself is returned. But a burst of
more than 1000 misuse events within one second — 1001 events whose
consecutive gaps are below a second, starting from a quiet state —
trips the breaker and raises the fatal runaway-loop `RuntimeError`
(`null.py::NullErrors`, `NullType.__call__`). -/
theorem null_call_isolated_ok_burst_raises :
    (∀ (t : ℚ) (s : NEState), 1 ≤ t - s.now →
      nullCall t s = .ok (⟨t, 0⟩, .null)) ∧
    (∀ (ts : List ℚ) (s : NEState), s.err = 0 → ts.length = 1001 →
      List.Chain' (fun a b => b - a < 1) (s.now :: ts) →
      runNullCalls ts s =
        .error
          "Endless loop of errors detected (more than 1k errors per second), killing fault tolerance") := by
  constructor
  · intro t s h
    have hgap : ¬(t - s.now < 1) := not_lt.mpr h
    simp [nullCall, nullErrors, hgap]
  · intro ts s herr hlen hchain
    refine runNullCalls_error_of_counter ts s hchain ?_ ?_
    · rw [herr, hlen]; norm_num
    · rw [herr]; norm_num

/-- Witness for C9: an isolated call at `t = 5` from a fresh state
returns the sentinel, and a concrete 1001-event burst (all at time
`0`) raises the runaway-loop error. -/
theorem null_call_isolated_ok_burst_raises_witness :
    nullCall 5 ⟨0, 34⟩ = .ok (⟨5, 0⟩, .null) ∧
    runNullCalls (List.replicate 1001 0) ⟨0, 0⟩ =
      .error
        "Endless loop of errors detected (more than 1k errors per second), killing fault tolerance" := by
  constructor
  · exact null_call_isolated_ok_burst_raises.1 5 ⟨0, 34⟩ (by norm_num)
  · refine null_call_isolated_ok_burst_raises.2 (List.replicate 1001 0)
      ⟨0, 0⟩ rfl (List.length_replicate 1001 0) ?_
    have h := chain'_lt_one_replicate (0 : ℚ) 1002
    rw [List.replicate_succ] at h
    exact h

/-! ## `magics.py` — the interpolation resolver

`magic_regex = r"\${([\.\$\!].*?)}"` (`configs/__init__.py` line 5):
a match is `${` followed by one of `.`, `$`, `!` and a shortest run of
non-newline characters up to the next `}`; the capture is the body
between the braces. `re.findall` scans left to right without
overlaps. -/

/-- Scan for the first unescaped `}`: returns the characters before it
and the characters after it. Fails at end of input or at a newline
(the regex `.` does not match `\n`, and the match is lazy, so the body
must reach a `}` with no newline in between). -/
def splitAtRBrace : List Char → Option (List Char × List Char)
  | [] => Option.none
  | c :: t =>
    if c = '}' then some ([], t)
    else if c = '\n' then Option.none
    else
      match splitAtRBrace t with
      | some (a, b) => some (c :: a, b)
      | Option.none => Option.none

theorem splitAtRBrace_length :
    ∀ (l a b : List Char), splitAtRBrace l = some (a, b) →
      b.length < l.length := by
  intro l
  induction l with
  | nil => intro a b h; simp [splitAtRBrace] at h
  | cons c t ih =>
    intro a b h
    by_cases hc : c = '}'
    · simp only [splitAtRBrace, hc, if_true] at h
      cases h
      simp
    · by_cases hn : c = '\n'
      · simp [splitAtRBrace, hc, hn] at h
      · simp only [splitAtRBrace, hc, hn, if_false] at h
        cases hs : splitAtRBrace t with
        | none => rw [hs] at h; simp at h
        | some p =>
          obtain ⟨a', b'⟩ := p
          rw [hs] at h
          simp only [Option.some.injEq, Prod.mk.injEq] at h
          obtain ⟨_, hb⟩ := h
          subst hb
          exact Nat.lt_succ_of_lt (ih a' b' hs)

/-- Is this character one of the marker class `[\.\$\!]`? -/
def isMagicMarker (c : Char) : Bool := c = '.' || c = '$' || c = '!'

/-- `re.findall(magic_regex, ·)`: all non-overlapping matches, left to
right, each given as its captured body (marker character included).
The `fuel` argument only makes the recursion structural (every step
consumes at least one character, so `length + 1` fuel never runs
out); `findMagics` below supplies it. -/
def findMagicsF : ℕ → List Char → List (List Char)
  | 0, _ => []
  | fuel + 1, l =>
    match l with
    | [] => []
    | '$' :: '{' :: c :: rest =>
      if isMagicMarker c then
        match splitAtRBrace rest with
        | some (content, after) => (c :: content) :: findMagicsF fuel after
        | Option.none => findMagicsF fuel ('{' :: c :: rest)
      else findMagicsF fuel ('{' :: c :: rest)
    | _ :: rest => findMagicsF fuel rest

/-- All matches of `magic_regex` in a character list. -/
def findMagics (l : List Char) : List (List Char) :=
  findMagicsF (l.length + 1) l

/-- Python `str.replace`: replace every non-overlapping occurrence of
`tgt` (non-empty) left to right. `fuel` as in `findMagicsF`. -/
def replaceAllF (tgt repl : List Char) : ℕ → List Char → List Char
  | _, [] => []
  | 0, l => l
  | fuel + 1, c :: rest =>
    if tgt.isPrefixOf (c :: rest) && !tgt.isEmpty then
      repl ++ replaceAllF tgt repl fuel (List.drop tgt.length (c :: rest))
    else c :: replaceAllF tgt repl fuel rest

/-- `str.replace` on character lists. -/
def pyReplaceL (l tgt repl : List Char) : List Char :=
  replaceAllF tgt repl (l.length + 1) l

/-! ### The config tree seen by the resolver

The `.`-lookup walks `data.get(key, other=Null, var=True)` over the
global `Config`'s `Sect` tree (`Var.replace` passes
`instance=None`, so `instance or Config` is the global instance; the
effective tree is the `cfg` parameter here). A present `Var` child is
returned as the object itself (`var=True`); a missing key returns
`Null`; `Null.get` keeps returning `Null`; continuing a path through a
`Var` raises `AttributeError` because `Var` has no `get`. -/

/-- A node of the config tree: a `Var` (with its `value` and
`default`) or a `Sect` with named children. -/
inductive CVal where
  | var (value default : PVal)
  | sect (entries : List (String × CVal))
  deriving Repr

/-- The running value of the `data` variable in the `.`-lookup loop. -/
inductive LookRes where
  | cv (c : CVal)
  | nullv
  deriving Repr

/-- One step `data = data.get(key, other=Null, var=True)`. -/
def chainStep : LookRes → String → Except String LookRes
  | .cv (.sect es), k =>
    .ok (match alookup es k with
      | some c => .cv c
      | Option.none => .nullv)
  | .cv (.var _ _), _ => .error "'Var' object has no attribute 'get'"
  | .nullv, _ => .ok .nullv

/-- The whole `for key in keys[1:]` loop. -/
def chainGo : LookRes → List String → Except String LookRes
  | res, [] => .ok res
  | res, k :: ks =>
    match chainStep res k with
    | .ok res' => chainGo res' ks
    | .error e => .error e

/-- The `.`-path lookup starting from the effective instance. -/
def chainLookup (start : CVal) (keys : List String) : Except String LookRes :=
  chainGo (.cv start) keys

/-- Python `str.split('.')`: split on every dot, keeping empty
segments. -/
def splitOnDot : List Char → List (List Char)
  | [] => [[]]
  | '.' :: rest => [] :: splitOnDot rest
  | c :: rest =>
    match splitOnDot rest with
    | g :: gs => (c :: g) :: gs
    | [] => [[c]]

/-- `magics.py::cast` applied to a successfully looked-up Python type
(`dtype(value)` inside `try`): `none` models a raised conversion
error, in which case the original value is kept. -/
def pyCast (t : PyTy) (v : PVal) : Option PVal :=
  match t with
  | .int =>
    match v with
    | .int n => some (.int n)
    | .bool b => some (.int (if b then 1 else 0))
    | .str s => (s.toInt?).map .int
    | _ => Option.none
  | .str => some (.str (PVal.pyStr v))
  | .bool => some (.bool v.truthy)
  | _ => Option.none

/-- `magics.py::cast` (lines 146-186): list dtypes and `list`/`tuple`
targets are not cast; typeless dtypes and `Null`/`None` values are
skipped; otherwise `dtype(value)` is attempted and a failure keeps the
uncast value. A registered-function dtype is called through the
environment `fns`; calling any other non-callable dtype raises, which
the `except` swallows, keeping the value. -/
def castM (fns : String → Option (List PVal → PVal)) (value dtype : PVal) : PVal :=
  match dtype with
  | .list _ => value
  | .pyType .list => value
  | .pyType .tuple => value
  | .str s => if s = "any" || s = "None" || s = "Null" then value
      else if value = .null || value = .none then value
      else value  -- calling a string raises TypeError, caught
  | .none => value
  | .null => value
  | .pyType t =>
    if value = .null || value = .none then value
    else (pyCast t value).getD value
  | .fnTok n =>
    if value = .null || value = .none then value
    else match fns n with
      | some f => f [value]
      | Option.none => value  -- unreachable: fnTok names a registered fn
  | _ => value  -- calling a non-callable raises TypeError, caught

/-- The `if dtype: return cast(value, dtype)` tail of
`magics.py::replace`. -/
def castIfDtype (fns : String → Option (List PVal → PVal)) (value dtype : PVal) :
    PVal :=
  if dtype.truthy then castM fns value dtype else value

/-- Outcome of the `for match in matches` loop of
`magics.py::replace`: fall through to the cast tail, early-return of
the current string (invalid `.`-path), or early-return of a raw value
(the `!` case, which bypasses the cast). -/
inductive RepRes where
  | fall (cur : String)
  | earlyStr (cur : String)
  | earlyVal (v : PVal)
  deriving Repr

/-- The match loop of `magics.py::replace` (lines 97-138). `cfg` is
the effective instance for `.`-lookups, `env` the process environment
(`get_env` returns `''` for a missing variable), `fns` the registered
functions reachable from `?`/`!` magics (unregistered names resolve to
`Null`, and calling `Null` returns `Null`). -/
def procMatches (cfg : CVal) (fns : String → Option (List PVal → PVal))
    (env : String → Option String) (callResets : Bool) :
    List (List Char) → List Char → Except String RepRes
  | [], cur => .ok (.fall (String.mk cur))
  | m :: ms, cur =>
    if m.head? = some '.' then
      let keys := splitOnDot m
      if keys.length < 2 then .ok (.earlyStr (String.mk cur))
      else
        match chainLookup cfg (keys.tail.map String.mk) with
        | .error e => .error e
        | .ok res =>
          match res with
          | .cv (.var val dflt) =>
            if callResets then
              .error "'Var' object has no attribute 'switchReplace'"
            else
              let data := if val = .null then dflt else val
              if data = .null then procMatches cfg fns env callResets ms cur
              else procMatches cfg fns env callResets ms
                (pyReplaceL cur ('$' :: '{' :: m ++ ['}'])
                  (PVal.pyStr data).toList)
          | .cv (.sect _) =>
            -- `str(data)` of a Sect object is its repr; no claim
            -- exercises this display string
            procMatches cfg fns env callResets ms
              (pyReplaceL cur ('$' :: '{' :: m ++ ['}']) "<Sect>".toList)
          | .nullv => procMatches cfg fns env callResets ms cur
    else if m.head? = some '$' then
      let data := PVal.str ((env (String.mk m.tail)).getD "")
      procMatches cfg fns env callResets ms
        (pyReplaceL cur ('$' :: '{' :: m ++ ['}']) (PVal.pyStr data).toList)
    else if m.head? = some '?' then
      let data := match fns (String.mk m.tail) with
        | some f => f []
        | Option.none => .null
      if data = .null then procMatches cfg fns env callResets ms cur
      else procMatches cfg fns env callResets ms
        (pyReplaceL cur ('$' :: '{' :: m ++ ['}']) (PVal.pyStr data).toList)
    else if m.head? = some '!' then
      .ok (.earlyVal (match fns (String.mk m.tail) with
        | some f => f []
        | Option.none => .null))
    else
      -- no valid starter token: logged, no substitution (unreachable
      -- for matches produced by `magic_regex`)
      procMatches cfg fns env callResets ms cur

/-- `magics.py::replace` (lines 92-143), the function registered as
`'config.replace'`. A string equal to a single backslash returns the
`Null` sentinel immediately; otherwise every regex match is resolved
and substituted stringified (`str(data)`), except that a `!` match
returns the function's value directly; non-string inputs skip the
loop. The `if dtype:` tail attempts a cast, except on the two early
returns. -/
def replaceM (cfg : CVal) (fns : String → Option (List PVal → PVal))
    (env : String → Option String) (value : PVal) (dtype : PVal)
    (callResets : Bool) : Except String PVal :=
  match value with
  | .str s =>
    if s = "\\" then .ok .null
    else
      match procMatches cfg fns env callResets (findMagics s.toList) s.toList with
      | .ok (.fall cur) => .ok (castIfDtype fns (.str cur) dtype)
      | .ok (.earlyStr cur) => .ok (.str cur)
      | .ok (.earlyVal v) => .ok v
      | .error e => .error e
  | v => .ok (castIfDtype fns v dtype)

/-! ## Supporting lemmas on the scanner and substitution -/

/-- A character allowed inside a regex match body: the lazy `.*?`
cannot cross a `}` and `.` does not match a newline. -/
def cleanBody (k : List Char) : Bool :=
  k.all fun c => !(c = '}') && !(c = '\n')

/-- A key usable as a single path segment: clean for the regex and
containing no `.` (so `split('.')` keeps it whole). -/
def cleanKey (k : List Char) : Bool :=
  cleanBody k && k.all fun c => !(c = '.')

theorem splitAtRBrace_append (t : List Char) :
    ∀ k : List Char, cleanBody k = true →
      splitAtRBrace (k ++ '}' :: t) = some (k, t) := by
  intro k
  induction k with
  | nil => intro _; simp [splitAtRBrace]
  | cons c rest ih =>
    intro h
    simp only [cleanBody, List.all_cons, Bool.and_eq_true] at h
    obtain ⟨⟨hc1, hc2⟩, h'⟩ := h
    have hc1' : ¬(c = '}') := by simpa using hc1
    have hc2' : ¬(c = '\n') := by simpa using hc2
    simp only [List.cons_append, splitAtRBrace, hc1', hc2', if_false]
    rw [List.append_eq, ih h']

theorem findMagicsF_nil (fuel : ℕ) : findMagicsF fuel [] = [] := by
  cases fuel <;> rfl

/-- A string that is exactly one magic occurrence has exactly that
match. -/
theorem findMagics_whole (c : Char) (k : List Char)
    (hc : isMagicMarker c = true) (hk : cleanBody k = true) :
    findMagics ('$' :: '{' :: c :: (k ++ ['}'])) = [c :: k] := by
  show findMagicsF _ _ = _
  rw [show ('$' :: '{' :: c :: (k ++ ['}'])).length + 1 = (k.length + 4) + 1 by
    simp]
  simp only [findMagicsF, hc, if_true]
  rw [show k ++ ['}'] = k ++ '}' :: [] from rfl, splitAtRBrace_append [] k hk]

theorem isPrefixOf_self (l : List Char) : l.isPrefixOf l = true := by
  induction l with
  | nil => rfl
  | cons c rest ih => simp [List.isPrefixOf, ih]

/-- Replacing the whole string by `repl`. -/
theorem pyReplaceL_self (tgt repl : List Char) (h : tgt ≠ []) :
    pyReplaceL tgt tgt repl = repl := by
  unfold pyReplaceL
  cases tgt with
  | nil => exact absurd rfl h
  | cons c rest =>
    simp only [List.length_cons, replaceAllF, isPrefixOf_self,
      List.isEmpty_cons, Bool.not_false, Bool.and_self, if_true]
    have hd : List.drop (rest.length + 1) (c :: rest) = [] := by simp
    rw [hd]
    simp [replaceAllF]

/-- Every match body starts with one of the marker characters
`.`, `$`, `!` (in particular never with `?`). -/
theorem findMagicsF_marker (fuel : ℕ) (l : List Char) :
    ∀ m ∈ findMagicsF fuel l,
      ∃ c rest, m = c :: rest ∧ isMagicMarker c = true := by
  induction fuel, l using findMagicsF.induct with
  | case1 l => intro m h; simp [findMagicsF] at h
  | case2 fuel => intro m h; simp [findMagicsF] at h
  | case3 fuel c rest hc content after hs ih =>
    intro m h
    simp only [findMagicsF, hc, if_true, hs] at h
    rcases List.mem_cons.mp h with hm | hm
    · exact ⟨c, content, hm, hc⟩
    · exact ih m hm
  | case4 fuel c rest hc hs ih =>
    intro m h
    simp only [findMagicsF, hc, if_true, hs] at h
    exact ih m h
  | case5 fuel c rest hc ih =>
    intro m h
    simp only [findMagicsF, hc, if_false] at h
    exact ih m h
  | case6 fuel c₀ rest hne ih =>
    intro m h
    have heq : findMagicsF (fuel + 1) (c₀ :: rest) = findMagicsF fuel rest := by
      rw [findMagicsF]
      exact hne
    rw [heq] at h
    exact ih m h

/-! ## `var.py::Var.dumpYaml` — serializing a scalar Var

The scalar (non-list, non-example) branch of `Var.dumpYaml`
(`var.py` lines 494-572): the emitted value is
`self.getValue(example=False)` — so a `Null` *value* falls back to the
`default` — and only a still-`Null` result is spelled as the reserved
backslash before `yaml.dump({key: value})` renders the line. -/

/-- The scalar rendering of `yaml.dump` for the modelled fragment
(plain style; pyyaml renders ints bare and the single-backslash string
as a bare backslash). -/
def yamlScalar : PVal → String
  | .str s => s
  | .int n => toString n
  | .bool b => if b then "true" else "false"
  | .none => "null"
  | v => PVal.pyStr v

/-- The `key: value` line emitted by `Var.dumpYaml` for a scalar
value (the flag/dtype/description columns are display-only and not
modelled). -/
def dumpYamlVarLine (key : String) (v : VarM) : String :=
  let value := v.getValue
  let value := if value = .null then PVal.str "\\" else value
  key ++ ": " ++ yamlScalar value

/-! ## Supporting lemmas for the whole-string magic theorems -/

theorem splitOnDot_nodot :
    ∀ k : List Char, (k.all fun c => !(c = '.')) = true →
      splitOnDot k = [k] := by
  intro k
  induction k with
  | nil => intro _; rfl
  | cons c rest ih =>
    intro h
    simp only [List.all_cons, Bool.and_eq_true] at h
    obtain ⟨hc, h'⟩ := h
    rw [splitOnDot, ih h']
    intro h1
    rw [h1] at hc
    simp at hc

theorem string_mk_ne_backslash (c : Char) (l : List Char) (h : ¬(c = '\\')) :
    ¬(String.mk (c :: l) = "\\") := by
  intro hcontra
  have : c :: l = ['\\'] := by
    have := congrArg String.toList hcontra
    simpa using this
  exact h (List.cons.inj this).1

/-! ## Claim theorems: C2 (corrected) -/

/-- C2 counterexample: the value `"${.a}"` is exactly one magic
occurrence and `a` holds the integer `5`, yet `magics.py::replace`
returns the *string* `"5"`, not the integer — the resolver stringifies
config-path lookups even when the magic is the entire value (the
repository's own test `test_config.test_replace` asserts
`C.b == '1'`). -/
theorem replace_whole_magic_counterexample :
    replaceM (.sect [("a", .var (.int 5) .null)]) (fun _ => Option.none)
      (fun _ => Option.none) (.str "${.a}") .null false = .ok (.str "5") ∧
    (Except.ok (PVal.str "5") : Except String PVal) ≠ .ok (.int 5) := by
  refine ⟨rfl, ?_⟩
  intro h
  cases h

/-- C2 amended: only the `!` function-call magic returns the resolved
value directly, un-stringified (and it replaces the whole field,
bypassing the dtype cast); a config-path magic that is the entire
value is resolved, converted with `str()` and substituted textually
(`magics.py` lines 97-143). -/
theorem replace_whole_magic_behaviour :
    (∀ (es : List (String × CVal)) (fns : String → Option (List PVal → PVal))
        (env : String → Option String) (k : List Char) (val dflt : PVal),
      cleanKey k = true →
      alookup es (String.mk k) = some (.var val dflt) →
      val ≠ .null →
      replaceM (.sect es) fns env
        (.str (String.mk ('$' :: '{' :: '.' :: (k ++ ['}'])))) .null false =
        .ok (.str (PVal.pyStr val))) ∧
    (∀ (cfg : CVal) (fns : String → Option (List PVal → PVal))
        (env : String → Option String) (dtype : PVal) (cr : Bool)
        (name : List Char) (g : List PVal → PVal),
      cleanBody name = true →
      fns (String.mk name) = some g →
      replaceM cfg fns env
        (.str (String.mk ('$' :: '{' :: '!' :: (name ++ ['}'])))) dtype cr =
        .ok (g [])) := by
  constructor
  · intro es fns env k val dflt hclean hlook hval
    have hbody : cleanBody k = true := by
      simp only [cleanKey, Bool.and_eq_true] at hclean
      exact hclean.1
    have hnod : (k.all fun c => !(c = '.')) = true := by
      simp only [cleanKey, Bool.and_eq_true] at hclean
      exact hclean.2
    have hne : ¬(String.mk ('$' :: '{' :: '.' :: (k ++ ['}'])) = "\\") :=
      string_mk_ne_backslash _ _ (by decide)
    have hfind : findMagics ('$' :: '{' :: '.' :: (k ++ ['}'])) =
        ['.' :: k] := findMagics_whole '.' k rfl hbody
    have hsplit : splitOnDot ('.' :: k) = [] :: [k] := by
      rw [splitOnDot, splitOnDot_nodot k hnod]
    have hrepl :
        pyReplaceL ('$' :: '{' :: '.' :: (k ++ ['}']))
          ('$' :: '{' :: '.' :: (k ++ ['}'])) (PVal.pyStr val).toList =
          (PVal.pyStr val).toList :=
      pyReplaceL_self _ _ (by simp)
    simp only [replaceM, hne, if_false]
    rw [show (String.mk ('$' :: '{' :: '.' :: (k ++ ['}']))).toList =
      '$' :: '{' :: '.' :: (k ++ ['}']) from rfl]
    rw [hfind]
    simp +decide only [procMatches, List.head?, hsplit, List.length_cons,
      List.length_nil, List.tail_cons, List.map_cons, List.map_nil,
      List.cons_append, List.nil_append, chainLookup, chainGo, chainStep,
      hlook, hval, if_false, if_true]
    rw [hrepl]
    rw [show String.mk (PVal.pyStr val).toList = PVal.pyStr val from rfl]
    simp [castIfDtype, PVal.truthy]
  · intro cfg fns env dtype cr name g hclean hfns
    have hne : ¬(String.mk ('$' :: '{' :: '!' :: (name ++ ['}'])) = "\\") :=
      string_mk_ne_backslash _ _ (by decide)
    have hfind : findMagics ('$' :: '{' :: '!' :: (name ++ ['}'])) =
        ['!' :: name] := findMagics_whole '!' name rfl hclean
    simp only [replaceM, hne, if_false]
    rw [show (String.mk ('$' :: '{' :: '!' :: (name ++ ['}']))).toList =
      '$' :: '{' :: '!' :: (name ++ ['}']) from rfl]
    rw [hfind]
    simp +decide only [procMatches, List.head?, List.tail_cons]
    simp [hfns]

/-- Witness for the amended C2: an integer-valued key read back through
a whole-string `.`-magic comes out as the string `"5"`, and a `!`
function magic returns a raw list value. -/
theorem replace_whole_magic_behaviour_witness :
    replaceM (.sect [("a", .var (.int 5) .null)]) (fun _ => Option.none)
      (fun _ => Option.none)
      (.str (String.mk ('$' :: '{' :: '.' :: (['a'] ++ ['}'])))) .null false =
      .ok (.str (PVal.pyStr (.int 5))) ∧
    replaceM (.sect []) (fun _ => some fun _ => PVal.list [.int 1])
      (fun _ => Option.none)
      (.str (String.mk ('$' :: '{' :: '!' :: (['f'] ++ ['}'])))) (.pyType .str)
      true = .ok (PVal.list [.int 1]) :=
  ⟨replace_whole_magic_behaviour.1 [("a", .var (.int 5) .null)]
      (fun _ => Option.none) (fun _ => Option.none) ['a'] (.int 5) .null
      rfl rfl (by decide),
    replace_whole_magic_behaviour.2 (.sect [])
      (fun _ => some fun _ => PVal.list [.int 1]) (fun _ => Option.none)
      (.pyType .str) true ['f'] (fun _ => PVal.list [.int 1]) rfl rfl⟩

/-! ## Claim theorems: C8 (corrected) -/

/-- C8 counterexample: `"a ${?f} b"` contains a `?` magic for a
registered function `f` returning `"X"`, but `magic_regex` (whose
marker class is `[\.\$\!]`) does not match `?` bodies — the repo's own
`test_magics` asserts `"${?}"` does not match — so `replace` returns
the string unchanged instead of substituting `"a X b"`. -/
theorem question_magic_counterexample :
    replaceM (.sect [])
      (fun n => if n = "f" then some (fun _ => PVal.str "X") else Option.none)
      (fun _ => Option.none) (.str "a ${?f} b") .null false =
      .ok (.str "a ${?f} b") ∧
    (Except.ok (PVal.str "a ${?f} b") : Except String PVal) ≠
      .ok (.str "a X b") := by
  refine ⟨rfl, ?_⟩
  intro h
  simp at h

/-- C8 amended: `magic_regex` only matches bodies starting with `.`,
`$` or `!`, never `?`; consequently a string whose only magic-like
content is `?`-marked has no matches and passes through `replace`
unchanged. Registered-function interpolation is only reachable through
the `!` whole-field form. -/
theorem question_magic_never_matches :
    (∀ (l m : List Char), m ∈ findMagics l →
      ∃ c rest, m = c :: rest ∧ isMagicMarker c = true ∧ ¬(c = '?')) ∧
    (∀ (cfg : CVal) (fns : String → Option (List PVal → PVal))
        (env : String → Option String) (cr : Bool) (s : String),
      findMagics s.toList = [] → ¬(s = "\\") →
      replaceM cfg fns env (.str s) .null cr = .ok (.str s)) := by
  constructor
  · intro l m h
    obtain ⟨c, rest, hm, hc⟩ := findMagicsF_marker (l.length + 1) l m h
    refine ⟨c, rest, hm, hc, ?_⟩
    intro hq
    rw [hq] at hc
    simp [isMagicMarker] at hc
  · intro cfg fns env cr s hfind hne
    simp only [replaceM, hne, if_false, hfind, procMatches]
    rw [show String.mk s.toList = s from rfl]
    simp [castIfDtype, PVal.truthy]

/-- Witness for the amended C8: the single match of `"${.a}"` starts
with `.` (not `?`), and `"a ${?f} b"` has no matches and is returned
unchanged. -/
theorem question_magic_never_matches_witness :
    (∃ c rest, ['.', 'a'] = c :: rest ∧ isMagicMarker c = true ∧
      ¬(c = '?')) ∧
    replaceM (.sect []) (fun _ => Option.none) (fun _ => Option.none)
      (.str "a ${?f} b") .null false = .ok (.str "a ${?f} b") :=
  ⟨question_magic_never_matches.1 "${.a}".toList ['.', 'a']
      (by rw [show findMagics "${.a}".toList = [['.', 'a']] from rfl]
          exact List.mem_singleton.mpr rfl),
    question_magic_never_matches.2 (.sect []) (fun _ => Option.none)
      (fun _ => Option.none) false "a ${?f} b" rfl (by decide)⟩

/-! ## Claim theorems: C6 (corrected) -/

/-- C6 counterexample: a `Var` whose `value` is the `Null` sentinel
but whose schema `default` is `5` serializes as `key: 5` —
`Var.dumpYaml` reads `getValue()`, which substitutes the default for a
`Null` value — so the reserved backslash spelling is *not* reproduced
for every Var whose value is `Null`. -/
theorem absent_dump_counterexample :
    dumpYamlVarLine "key" { value := .null, default := .int 5 } = "key: 5" ∧
    ¬(dumpYamlVarLine "key" { value := .null, default := .int 5 } =
      "key: \\") := by
  refine ⟨rfl, ?_⟩
  intro h
  rw [show dumpYamlVarLine "key" { value := .null, default := .int 5 } =
    "key: 5" from rfl] at h
  simp at h

/-- C6 amended: interpolation resolves the reserved single-backslash
spelling to the `Null` sentinel (never the empty string), and
serializing a Var whose value *and default* are both `Null` re-emits
the reserved backslash spelling with the key present — the round trip
holds whenever no schema default shadows the explicit absence
(`magics.py` lines 92-95, `var.py` lines 547-565). -/
theorem absent_roundtrip_amended (cfg : CVal)
    (fns : String → Option (List PVal → PVal)) (env : String → Option String)
    (dtype : PVal) (cr : Bool) (v : VarM) (k : String)
    (hval : v.value = .null) (hdef : v.default = .null) :
    replaceM cfg fns env (.str "\\") dtype cr = .ok .null ∧
    dumpYamlVarLine k v = k ++ ": \\" ∧
    ¬(dumpYamlVarLine k v = k ++ ": ") := by
  have hdump : dumpYamlVarLine k v = k ++ ": " ++ "\\" := by
    simp [dumpYamlVarLine, VarM.getValue, hval, hdef, yamlScalar]
  refine ⟨rfl, ?_, ?_⟩
  · rw [hdump, String.append_assoc]
    exact congrArg (fun x => k ++ x) (show ": " ++ "\\" = ": \\" by rfl)
  · intro h
    rw [hdump] at h
    have h2 := congrArg String.length h
    rw [String.length_append, String.length_append,
      show (": ").length = 2 from rfl, show ("\\").length = 1 from rfl] at h2
    omega

/-- Witness for the amended C6: the default-free `Var{}` round-trips
the backslash spelling. -/
theorem absent_roundtrip_amended_witness :
    replaceM (.sect []) (fun _ => Option.none) (fun _ => Option.none)
      (.str "\\") .null false = .ok .null ∧
    dumpYamlVarLine "k" {} = "k" ++ ": \\" ∧
    ¬(dumpYamlVarLine "k" {} = "k" ++ ": ") :=
  absent_roundtrip_amended (.sect []) (fun _ => Option.none)
    (fun _ => Option.none) .null false {} "k" rfl rfl

/-! ## `sect.py::Sect._patch` / `config.py::Config.inherit_` — merge

`Sect._patch(other)` (`sect.py` lines 344-381) iterates `other`'s
items in order: a child `Sect` is merged recursively when `self` also
holds a `Sect` at that key and replaces outright otherwise; a `Var`
(scalar leaf) always replaces. Assignments are Python dict assignments
(`upsert`). `Config.inherit_` (`config.py` lines 288-326) folds its
`update(a, b)` helper over the ordered section list; `update` writes
`a`'s entries into `b` with the same recursion (and raises `TypeError`
when a dict would have to merge into a scalar). -/

/-- A raw config tree: scalar leaves (`Var` values) and dict sections
with insertion-ordered entries. -/
inductive RVal where
  | leaf (v : PVal)
  | sect (entries : List (String × RVal))
  deriving Repr

/-- `Sect._patch`: patch the entries `a` (self) with the entries `b`
(other), in `b`'s iteration order. -/
def patchE : List (String × RVal) → List (String × RVal) →
    List (String × RVal)
  | a, [] => a
  | a, (k, .leaf v) :: rest => patchE (upsert a k (.leaf v)) rest
  | a, (k, .sect oe) :: rest =>
    match alookup a k with
    | some (.sect se) => patchE (upsert a k (.sect (patchE se oe))) rest
    | _ => patchE (upsert a k (.sect oe)) rest
  termination_by _ b => sizeOf b
  decreasing_by all_goals (first | (simp; omega) | simp | omega)

/-- Walk a dotted path: descending into a leaf or a missing key gives
nothing. -/
def getPath : RVal → List String → Option RVal
  | t, [] => some t
  | .sect es, k :: p =>
    (match alookup es k with
      | some c => getPath c p
      | Option.none => Option.none)
  | .leaf _, _ :: _ => Option.none

/-- The scalar value at a path, when the path ends at a leaf. -/
def leafAt (t : RVal) (p : List String) : Option PVal :=
  match getPath t p with
  | some (.leaf v) => some v
  | _ => Option.none

/-- Every *proper* prefix of `p` that the tree defines is a dict
section (no leaf shadows the path). This is the shape condition under
which a path read distributes over the merge; when it fails, the
right side's replace-outright rule can drop left-side leaves. -/
def dictAlong : RVal → List String → Bool
  | _, [] => true
  | .leaf _, _ :: _ => false
  | .sect es, k :: p =>
    (match alookup es k with
      | some c => dictAlong c p
      | Option.none => true)

mutual

/-- Key uniqueness at every dict level (Python dicts cannot hold
duplicate keys). -/
def wfR : RVal → Bool
  | .leaf _ => true
  | .sect es => wfEs es

/-- `wfR` over an entry list. -/
def wfEs : List (String × RVal) → Bool
  | [] => true
  | (k, v) :: rest => (alookup rest k).isNone && wfR v && wfEs rest

end

/-- `config.py::Config.inherit_.update(a, b)`: write `a`'s entries
into `b`; a dict value merges recursively into an existing entry —
which raises `TypeError` when that entry is a scalar and `a`'s dict is
non-empty (`b[k] = v` item-assignment, or `k in b`, on a scalar) —
and every other value is assigned outright. -/
def updateE : List (String × RVal) → List (String × RVal) →
    Except String (List (String × RVal))
  | [], b => .ok b
  | (k, .leaf v) :: rest, b => updateE rest (upsert b k (.leaf v))
  | (k, .sect ve) :: rest, b =>
    match alookup b k with
    | some (.sect be) =>
      match updateE ve be with
      | .ok be' => updateE rest (upsert b k (.sect be'))
      | .error e => .error e
    | some (.leaf _) =>
      if ve.isEmpty then updateE rest b
      else .error "argument of type 'int' is not iterable"
    | Option.none => updateE rest (upsert b k (.sect ve))
  termination_by a _ => sizeOf a
  decreasing_by all_goals (first | (simp; omega) | simp | omega)

/-- `Config.inherit_`: fold `update` over the named top-level
sections, skipping (with a logged warning) names missing from the
data; a scalar top-level section has no `.items()` and raises. -/
def inheritGo (data : List (String × RVal)) :
    List String → List (String × RVal) →
    Except String (List (String × RVal))
  | [], acc => .ok acc
  | key :: rest, acc =>
    match alookup data key with
    | Option.none => inheritGo data rest acc
    | some (.sect es) =>
      match updateE es acc with
      | .ok acc' => inheritGo data rest acc'
      | .error e => .error e
    | some (.leaf _) => .error "'int' object has no attribute 'items'"

/-- `Config.inherit_(keys, data)` starting from the empty accumulator. -/
def inheritE (keys : List String) (data : List (String × RVal)) :
    Except String (List (String × RVal)) :=
  inheritGo data keys []

/-- No dict value of `a` would have to merge into a scalar of `b`
(the condition under which `update(a, b)` neither raises nor silently
skips); checked recursively. -/
def noClash : List (String × RVal) → List (String × RVal) → Bool
  | _, [] => true
  | b, (_, .leaf _) :: rest => noClash b rest
  | b, (k, .sect ve) :: rest =>
    (match alookup b k with
      | some (.sect be) => noClash be ve
      | some (.leaf _) => false
      | Option.none => true) && noClash b rest
  termination_by _ a => sizeOf a
  decreasing_by all_goals (first | (simp; omega) | simp | omega)

/-! ## Supporting lemmas on the merge -/

theorem wfEs_lookup (k : String) :
    ∀ (es : List (String × RVal)) (v : RVal), wfEs es = true →
      alookup es k = some v → wfR v = true := by
  intro es
  induction es with
  | nil => intro v _ h; simp [alookup] at h
  | cons e rest ih =>
    obtain ⟨k', v'⟩ := e
    intro v hwf hl
    rw [wfEs] at hwf
    simp only [Bool.and_eq_true] at hwf
    obtain ⟨⟨_, hv⟩, hrest⟩ := hwf
    by_cases hk : k' = k
    · subst hk
      simp only [alookup, if_true] at hl
      cases hl
      exact hv
    · simp only [alookup, hk, if_false] at hl
      exact ih v hrest hl

/-- What a key resolves to after a patch: a leaf on the right wins, two
sections merge recursively, a right section otherwise replaces, and an
absent right key leaves the left entry. -/
theorem patchE_alookup (k : String) :
    ∀ (b a : List (String × RVal)), wfEs b = true →
      alookup (patchE a b) k =
        (match alookup b k, alookup a k with
          | some (.leaf v), _ => some (.leaf v)
          | some (.sect oe), some (.sect se) => some (.sect (patchE se oe))
          | some (.sect oe), some (.leaf _) => some (.sect oe)
          | some (.sect oe), Option.none => some (.sect oe)
          | Option.none, x => x) := by
  intro b
  induction b with
  | nil => intro a _; simp [patchE, alookup]
  | cons e rest ih =>
    obtain ⟨k', item⟩ := e
    intro a hwf
    rw [wfEs] at hwf
    simp only [Bool.and_eq_true, Option.isNone_iff_eq_none] at hwf
    obtain ⟨⟨hnotin, _⟩, hrest⟩ := hwf
    cases item with
    | leaf v =>
      rw [show patchE a ((k', .leaf v) :: rest) =
        patchE (upsert a k' (.leaf v)) rest from by simp [patchE]]
      rw [ih _ hrest]
      by_cases hk : k' = k
      · subst hk
        rw [hnotin, alookup_upsert_self]
        simp [alookup]
      · rw [alookup_upsert_ne _ _ _ _ hk]
        simp [alookup, hk]
    | sect oe =>
      by_cases hk : k' = k
      · subst hk
        cases ha : alookup a k' with
        | none =>
          rw [show patchE a ((k', .sect oe) :: rest) =
            patchE (upsert a k' (.sect oe)) rest from by simp [patchE, ha]]
          rw [ih _ hrest, hnotin, alookup_upsert_self]
          simp [alookup]
        | some c =>
          cases c with
          | leaf w =>
            rw [show patchE a ((k', .sect oe) :: rest) =
              patchE (upsert a k' (.sect oe)) rest from by simp [patchE, ha]]
            rw [ih _ hrest, hnotin, alookup_upsert_self]
            simp [alookup]
          | sect se =>
            rw [show patchE a ((k', .sect oe) :: rest) =
              patchE (upsert a k' (.sect (patchE se oe))) rest from by
                simp [patchE, ha]]
            rw [ih _ hrest, hnotin, alookup_upsert_self]
            simp [alookup]
      · have hb : alookup ((k', RVal.sect oe) :: rest) k = alookup rest k := by
          simp [alookup, hk]
        cases ha : alookup a k' with
        | none =>
          rw [show patchE a ((k', .sect oe) :: rest) =
            patchE (upsert a k' (.sect oe)) rest from by simp [patchE, ha]]
          rw [ih _ hrest, alookup_upsert_ne _ _ _ _ hk, hb]
        | some c =>
          cases c with
          | leaf w =>
            rw [show patchE a ((k', .sect oe) :: rest) =
              patchE (upsert a k' (.sect oe)) rest from by simp [patchE, ha]]
            rw [ih _ hrest, alookup_upsert_ne _ _ _ _ hk, hb]
          | sect se =>
            rw [show patchE a ((k', .sect oe) :: rest) =
              patchE (upsert a k' (.sect (patchE se oe))) rest from by
                simp [patchE, ha]]
            rw [ih _ hrest, alookup_upsert_ne _ _ _ _ hk, hb]

theorem leafAt_sect_cons (es : List (String × RVal)) (k : String)
    (p : List String) :
    leafAt (.sect es) (k :: p) =
      (match alookup es k with
        | some c => leafAt c p
        | Option.none => Option.none) := by
  cases h : alookup es k <;> simp [leafAt, getPath, h]

theorem leafAt_of_getPath_none (t : RVal) (p : List String)
    (h : getPath t p = Option.none) : leafAt t p = Option.none := by
  simp [leafAt, h]

/-- The core right-bias law: under the dict-shape condition along the
path on both sides, a leaf read on a patched tree gives the right
side's result whenever the right side defines the path at all, and the
left side's result otherwise. -/
theorem patchE_leafAt :
    ∀ (p : List String) (a b : List (String × RVal)), wfEs b = true →
      dictAlong (.sect a) p = true → dictAlong (.sect b) p = true →
      leafAt (.sect (patchE a b)) p =
        if (getPath (.sect b) p).isSome then leafAt (.sect b) p
        else leafAt (.sect a) p := by
  intro p
  induction p with
  | nil =>
    intro a b _ _ _
    simp [leafAt, getPath]
  | cons k p' ih =>
    intro a b hwf hda hdb
    have hlk := patchE_alookup k b a hwf
    rw [leafAt_sect_cons, hlk]
    cases hb : alookup b k with
    | none =>
      rw [show getPath (.sect b) (k :: p') = Option.none from by
        simp [getPath, hb]]
      rw [leafAt_sect_cons a k p']
      simp only [hb, Option.isSome_none, Bool.false_eq_true, if_false]
    | some cb =>
      cases cb with
      | leaf v =>
        cases p' with
        | nil =>
          simp only
          rw [show getPath (.sect b) [k] = some (.leaf v) from by
            simp [getPath, hb]]
          rw [show leafAt (.sect b) [k] = some v from by
            simp [leafAt, getPath, hb]]
          simp [leafAt, getPath]
        | cons k2 p'' =>
          exfalso
          rw [show dictAlong (.sect b) (k :: k2 :: p'') =
            dictAlong (.leaf v) (k2 :: p'') from by simp [dictAlong, hb]] at hdb
          simp [dictAlong] at hdb
      | sect oe =>
        have hwoe : wfEs oe = true := by
          have := wfEs_lookup k b (.sect oe) hwf hb
          simpa [wfR] using this
        have hdb' : dictAlong (.sect oe) p' = true := by
          rw [show dictAlong (.sect b) (k :: p') =
            dictAlong (.sect oe) p' from by simp [dictAlong, hb]] at hdb
          exact hdb
        have hgb : getPath (.sect b) (k :: p') = getPath (.sect oe) p' := by
          simp [getPath, hb]
        have hlb : leafAt (.sect b) (k :: p') = leafAt (.sect oe) p' := by
          rw [leafAt_sect_cons, hb]
        cases ha : alookup a k with
        | none =>
          simp only
          rw [hgb, hlb, leafAt_sect_cons, ha]
          cases hg : getPath (.sect oe) p' with
          | none => simp [leafAt_of_getPath_none _ _ hg, hg]
          | some c =>
            simp only [hg, Option.isSome_some, if_true]
        | some ca =>
          cases ca with
          | leaf w =>
            cases p' with
            | nil =>
              simp only
              rw [hgb, hlb]
              simp [leafAt, getPath]
            | cons k2 p'' =>
              exfalso
              rw [show dictAlong (.sect a) (k :: k2 :: p'') =
                dictAlong (.leaf w) (k2 :: p'') from by
                  simp [dictAlong, ha]] at hda
              simp [dictAlong] at hda
          | sect se =>
            have hda' : dictAlong (.sect se) p' = true := by
              rw [show dictAlong (.sect a) (k :: p') =
                dictAlong (.sect se) p' from by simp [dictAlong, ha]] at hda
              exact hda
            have hla : leafAt (.sect a) (k :: p') = leafAt (.sect se) p' := by
              rw [leafAt_sect_cons, ha]
            simp only
            rw [hgb, hlb, hla]
            exact ih se oe hwoe hda' hdb'

/-- Patching preserves the dict-shape condition along a path. -/
theorem dictAlong_patchE :
    ∀ (p : List String) (a b : List (String × RVal)), wfEs b = true →
      dictAlong (.sect a) p = true → dictAlong (.sect b) p = true →
      dictAlong (.sect (patchE a b)) p = true := by
  intro p
  induction p with
  | nil => intro a b _ _ _; rfl
  | cons k p' ih =>
    intro a b hwf hda hdb
    have hlk := patchE_alookup k b a hwf
    rw [show dictAlong (.sect (patchE a b)) (k :: p') =
      (match alookup (patchE a b) k with
        | some c => dictAlong c p'
        | Option.none => true) from rfl, hlk]
    cases hb : alookup b k with
    | none =>
      rw [show dictAlong (.sect a) (k :: p') =
        (match alookup a k with
          | some c => dictAlong c p'
          | Option.none => true) from rfl] at hda
      cases ha : alookup a k <;> rw [ha] at hda <;> simpa using hda
    | some cb =>
      rw [show dictAlong (.sect b) (k :: p') =
        (match alookup b k with
          | some c => dictAlong c p'
          | Option.none => true) from rfl, hb] at hdb
      cases cb with
      | leaf v => simpa using hdb
      | sect oe =>
        have hwoe : wfEs oe = true := by
          have := wfEs_lookup k b (.sect oe) hwf hb
          simpa [wfR] using this
        cases ha : alookup a k with
        | none => simpa using hdb
        | some ca =>
          cases ca with
          | leaf w => simpa using hdb
          | sect se =>
            rw [show dictAlong (.sect a) (k :: p') =
              (match alookup a k with
                | some c => dictAlong c p'
                | Option.none => true) from rfl, ha] at hda
            simpa using ih se oe hwoe (by simpa using hda) (by simpa using hdb)

/-- `noClash` only consults `b` at the keys of `a`, so updating `b` at
a key absent from `a` does not change it. -/
theorem noClash_upsert (k : String) (x : RVal) :
    ∀ (a b : List (String × RVal)), alookup a k = Option.none →
      noClash (upsert b k x) a = noClash b a := by
  intro a
  induction a with
  | nil => intro b _; simp [noClash]
  | cons e rest ih =>
    obtain ⟨k', v'⟩ := e
    intro b hnk
    have hk : ¬(k' = k) := by
      intro hkk
      simp [alookup, hkk] at hnk
    have hrest : alookup rest k = Option.none := by
      simpa [alookup, hk] using hnk
    cases v' with
    | leaf w => simp [noClash, ih b hrest]
    | sect ve =>
      rw [show noClash (upsert b k x) ((k', RVal.sect ve) :: rest) =
        ((match alookup (upsert b k x) k' with
          | some (.sect be) => noClash be ve
          | some (.leaf _) => false
          | Option.none => true) && noClash (upsert b k x) rest) from by
          simp [noClash]]
      rw [show noClash b ((k', RVal.sect ve) :: rest) =
        ((match alookup b k' with
          | some (.sect be) => noClash be ve
          | some (.leaf _) => false
          | Option.none => true) && noClash b rest) from by simp [noClash]]
      rw [alookup_upsert_ne _ _ _ _ (fun h => hk h.symm), ih b hrest]

/-- `Config.inherit_.update(a, b)` computes exactly `Sect._patch` of
`b` by `a` whenever `a` has unique keys per level and no dict value of
`a` meets a scalar of `b` (otherwise `update` raises `TypeError` or
silently skips an empty dict). -/
theorem updateE_eq_patchE_aux :
    ∀ (n : ℕ) (a b : List (String × RVal)), sizeOf a ≤ n →
      wfEs a = true → noClash b a = true →
      updateE a b = .ok (patchE b a) := by
  intro n
  induction n with
  | zero =>
    intro a b hsz _ _
    exfalso
    cases a <;> simp at hsz
  | succ m ih =>
    intro a b hsz hwfa hnca
    match a with
    | [] => simp [updateE, patchE]
    | (k, v) :: rest =>
    have hszs : sizeOf rest ≤ m ∧ sizeOf v + 1 ≤ m := by
      simp only [List.cons.sizeOf_spec, Prod.mk.sizeOf_spec] at hsz
      have hv : 0 < sizeOf v := by
        cases v <;> simp
      omega
    have hwf := hwfa
    have hnc := hnca
    rw [wfEs] at hwf
    simp only [Bool.and_eq_true, Option.isNone_iff_eq_none] at hwf
    obtain ⟨⟨hnotin, hwv⟩, hwrest⟩ := hwf
    cases v with
    | leaf w =>
      have hnc' : noClash (upsert b k (.leaf w)) rest = true := by
        rw [noClash_upsert k _ rest b hnotin]
        simpa [noClash] using hnc
      rw [show updateE ((k, RVal.leaf w) :: rest) b =
        updateE rest (upsert b k (.leaf w)) from by simp [updateE]]
      rw [show patchE b ((k, RVal.leaf w) :: rest) =
        patchE (upsert b k (.leaf w)) rest from by simp [patchE]]
      exact ih rest _ hszs.1 hwrest hnc'
    | sect ve =>
      have hncs : (match alookup b k with
          | some (.sect be) => noClash be ve
          | some (.leaf _) => false
          | Option.none => true) = true ∧ noClash b rest = true := by
        have : noClash b ((k, RVal.sect ve) :: rest) =
            ((match alookup b k with
              | some (.sect be) => noClash be ve
              | some (.leaf _) => false
              | Option.none => true) && noClash b rest) := by simp [noClash]
        rw [this] at hnc
        simpa using hnc
      have hwve : wfEs ve = true := by simpa [wfR] using hwv
      cases hb : alookup b k with
      | none =>
        have hnc' : noClash (upsert b k (.sect ve)) rest = true := by
          rw [noClash_upsert k _ rest b hnotin]
          exact hncs.2
        rw [show updateE ((k, RVal.sect ve) :: rest) b =
          updateE rest (upsert b k (.sect ve)) from by simp [updateE, hb]]
        rw [show patchE b ((k, RVal.sect ve) :: rest) =
          patchE (upsert b k (.sect ve)) rest from by simp [patchE, hb]]
        exact ih rest _ hszs.1 hwrest hnc'
      | some cb =>
        cases cb with
        | leaf w =>
          exfalso
          have := hncs.1
          rw [hb] at this
          simp at this
        | sect be =>
          have hncbe : noClash be ve = true := by
            have := hncs.1
            rwa [hb] at this
          have hrec : updateE ve be = .ok (patchE be ve) := by
            refine ih ve be ?_ hwve hncbe
            have : sizeOf (RVal.sect ve) + 1 ≤ m := hszs.2
            simp only [RVal.sect.sizeOf_spec] at this
            omega
          have hnc' : noClash (upsert b k (.sect (patchE be ve))) rest =
              true := by
            rw [noClash_upsert k _ rest b hnotin]
            exact hncs.2
          rw [show updateE ((k, RVal.sect ve) :: rest) b =
            (match updateE ve be with
              | .ok be' => updateE rest (upsert b k (.sect be'))
              | .error e => .error e) from by simp [updateE, hb]]
          rw [hrec]
          rw [show patchE b ((k, RVal.sect ve) :: rest) =
            patchE (upsert b k (.sect (patchE be ve))) rest from by
              simp [patchE, hb]]
          exact ih rest _ hszs.1 hwrest hnc'

/-- `Config.inherit_.update(a, b)` computes exactly `Sect._patch` of
`b` by `a` under the well-formedness and no-clash conditions. -/
theorem updateE_eq_patchE (a b : List (String × RVal))
    (hwf : wfEs a = true) (hnc : noClash b a = true) :
    updateE a b = .ok (patchE b a) :=
  updateE_eq_patchE_aux (sizeOf a) a b (Nat.le_refl _) hwf hnc

/-! ## Claim theorem: C1 -/

/-- C1: the patch/merge operation is right-biased and recursive. The
conjuncts state: (1) the concrete example `A={a:{x:1,y:2}}` patched by
`B={a:{x:-1,z:3}}` yields `{a:{x:-1,y:2,z:3}}`; (2) the merged key set
at a dict level is the union of both sides' keys; (3) reading a leaf
path on `A|B` gives `B`'s result when `B` defines the path and `A`'s
otherwise, provided no leaf shadows a proper prefix of the path on
either side (`dictAlong`); (4) for a chain `A<-B<-C`, a leaf read
gives `C`'s value if `C` defines it, else `B`'s, else `A`'s; (5)
`Config.inherit_`'s `update(a, b)` computes exactly this patch of `b`
by `a` on clash-free inputs (`sect.py::Sect._patch`,
`config.py::Config.inherit_`). -/
theorem patch_right_biased_recursive :
    patchE
        [("a", .sect [("x", .leaf (.int 1)), ("y", .leaf (.int 2))])]
        [("a", .sect [("x", .leaf (.int (-1))), ("z", .leaf (.int 3))])] =
      [("a", .sect [("x", .leaf (.int (-1))), ("y", .leaf (.int 2)),
        ("z", .leaf (.int 3))])] ∧
    (∀ (a b : List (String × RVal)) (k : String), wfEs b = true →
      (alookup (patchE a b) k).isSome =
        ((alookup a k).isSome || (alookup b k).isSome)) ∧
    (∀ (p : List String) (a b : List (String × RVal)), wfEs b = true →
      dictAlong (.sect a) p = true → dictAlong (.sect b) p = true →
      leafAt (.sect (patchE a b)) p =
        if (getPath (.sect b) p).isSome then leafAt (.sect b) p
        else leafAt (.sect a) p) ∧
    (∀ (p : List String) (a b c : List (String × RVal)),
      wfEs b = true → wfEs c = true →
      dictAlong (.sect a) p = true → dictAlong (.sect b) p = true →
      dictAlong (.sect c) p = true →
      leafAt (.sect (patchE (patchE a b) c)) p =
        if (getPath (.sect c) p).isSome then leafAt (.sect c) p
        else if (getPath (.sect b) p).isSome then leafAt (.sect b) p
        else leafAt (.sect a) p) ∧
    (∀ (a b : List (String × RVal)), wfEs a = true → noClash b a = true →
      updateE a b = .ok (patchE b a)) := by
  refine ⟨?_, ?_, patchE_leafAt, ?_, updateE_eq_patchE⟩
  · simp +decide [patchE, upsert, alookup]
  · intro a b k hwf
    rw [patchE_alookup k b a hwf]
    cases hb : alookup b k with
    | none => cases ha : alookup a k <;> simp
    | some cb =>
      cases cb with
      | leaf v => cases ha : alookup a k <;> simp
      | sect oe =>
        cases ha : alookup a k with
        | none => simp
        | some ca => cases ca <;> simp
  · intro p a b c hwb hwc hda hdb hdc
    have hdab : dictAlong (.sect (patchE a b)) p = true :=
      dictAlong_patchE p a b hwb hda hdb
    rw [patchE_leafAt p (patchE a b) c hwc hdab hdc]
    cases hc : (getPath (.sect c) p).isSome with
    | true => simp [hc]
    | false =>
      simp only [hc, Bool.false_eq_true, if_false]
      rw [patchE_leafAt p a b hwb hda hdb]

/-- Witness for C1: all universally-quantified conjuncts applied at
the example data (paths `a.x`, `a.y`, `a.z`, a three-section chain,
and a concrete `inherit_` update). -/
theorem patch_right_biased_recursive_witness :
    (alookup (patchE [("a", RVal.leaf (.int 7))]
        [("b", RVal.leaf (.int 8))]) "b").isSome =
      ((alookup [("a", RVal.leaf (.int 7))] "b").isSome ||
        (alookup [("b", RVal.leaf (.int 8))] "b").isSome) ∧
    leafAt (.sect (patchE
        [("a", .sect [("x", .leaf (.int 1)), ("y", .leaf (.int 2))])]
        [("a", .sect [("x", .leaf (.int (-1))), ("z", .leaf (.int 3))])]))
        ["a", "y"] =
      (if (getPath (.sect [("a", RVal.sect [("x", RVal.leaf (.int (-1))),
            ("z", RVal.leaf (.int 3))])]) ["a", "y"]).isSome
        then leafAt (.sect [("a", RVal.sect [("x", RVal.leaf (.int (-1))),
            ("z", RVal.leaf (.int 3))])]) ["a", "y"]
        else leafAt (.sect [("a", RVal.sect [("x", RVal.leaf (.int 1)),
            ("y", RVal.leaf (.int 2))])]) ["a", "y"]) ∧
    leafAt (.sect (patchE (patchE
        [("k", .leaf (.int 1))] [("k", .leaf (.int 2))])
        [("m", .leaf (.int 9))])) ["k"] =
      (if (getPath (.sect [("m", RVal.leaf (.int 9))]) ["k"]).isSome
        then leafAt (.sect [("m", RVal.leaf (.int 9))]) ["k"]
        else if (getPath (.sect [("k", RVal.leaf (.int 2))]) ["k"]).isSome
        then leafAt (.sect [("k", RVal.leaf (.int 2))]) ["k"]
        else leafAt (.sect [("k", RVal.leaf (.int 1))]) ["k"]) ∧
    updateE [("a", .sect [("x", .leaf (.int (-1))), ("z", .leaf (.int 3))])]
        [("a", .sect [("x", .leaf (.int 1)), ("y", .leaf (.int 2))])] =
      .ok (patchE
        [("a", .sect [("x", .leaf (.int 1)), ("y", .leaf (.int 2))])]
        [("a", .sect [("x", .leaf (.int (-1))), ("z", .leaf (.int 3))])]) :=
  ⟨patch_right_biased_recursive.2.1 [("a", RVal.leaf (.int 7))]
      [("b", RVal.leaf (.int 8))] "b" (by simp [wfEs, wfR, alookup]),
    patch_right_biased_recursive.2.2.1 ["a", "y"]
      [("a", .sect [("x", .leaf (.int 1)), ("y", .leaf (.int 2))])]
      [("a", .sect [("x", .leaf (.int (-1))), ("z", .leaf (.int 3))])]
      (by simp [wfEs, wfR, alookup])
      (by simp [dictAlong, alookup])
      (by simp [dictAlong, alookup]),
    patch_right_biased_recursive.2.2.2.1 ["k"]
      [("k", .leaf (.int 1))] [("k", .leaf (.int 2))]
      [("m", .leaf (.int 9))]
      (by simp [wfEs, wfR, alookup]) (by simp [wfEs, wfR, alookup])
      (by simp [dictAlong, alookup]) (by simp [dictAlong, alookup])
      (by simp [dictAlong, alookup]),
    patch_right_biased_recursive.2.2.2.2
      [("a", .sect [("x", .leaf (.int (-1))), ("z", .leaf (.int 3))])]
      [("a", .sect [("x", .leaf (.int 1)), ("y", .leaf (.int 2))])]
      (by simp [wfEs, wfR, alookup])
      (by simp [noClash, alookup])⟩

/-! ## `var.py` — `getType`, `Var.__setattr__` and `Var.applyDefinition`

The definitions-application path on scalar nodes: `getType` converts
dtype names through the `Types` table with a registered-function
fallback, `Var.__setattr__` special-cases `value`, `dtype` and
`subtypes` and stores every other attribute verbatim, and
`Var.applyDefinition` walks a definitions dict, with the
default-fills-original rule (`var.py` lines 33-40, 164-206,
395-413). -/

/-- `var.py::Types`: dtype-name to Python-type table. -/
def typesTable : String → Option PyTy
  | "bool" => some .bool
  | "bytes" => some .bytes
  | "complex" => some .complex
  | "dict" => some .dict
  | "float" => some .float
  | "int" => some .int
  | "list" => some .list
  | "set" => some .set
  | "str" => some .str
  | "tuple" => some .tuple
  | _ => Option.none

/-- One lookup `Types.get(val, funcs.Funcs.get(val, val))`: a known
type name becomes the type, a registered-function name becomes the
function object, anything else is returned unchanged (`reg` is the
set of registered function names). -/
def getType1 (reg : List String) : PVal → PVal
  | .str s =>
    match typesTable s with
    | some t => .pyType t
    | Option.none => if s ∈ reg then .fnTok s else .str s
  | v => v

/-- `var.py::getType`: map the lookup over a list dtype, otherwise
apply it once. -/
def getType (reg : List String) : PVal → PVal
  | .list xs => .list (xs.map (getType1 reg))
  | v => getType1 reg v

mutual

/-- Does a value contain a magic string anywhere (such values would
need the global config to resolve during a `value` assignment)? -/
def hasMagicStr : PVal → Bool
  | .str s => !(findMagics s.toList).isEmpty
  | .list xs => hasMagicStrList xs
  | .dict es => hasMagicStrDict es
  | _ => false

/-- `hasMagicStr` over list elements. -/
def hasMagicStrList : List PVal → Bool
  | [] => false
  | x :: xs => hasMagicStr x || hasMagicStrList xs

/-- `hasMagicStr` over dict entries. -/
def hasMagicStrDict : List (String × PVal) → Bool
  | [] => false
  | (_, x) :: xs => hasMagicStr x || hasMagicStrDict xs

end

/-- The per-entry loop of the `subtypes` assignment. -/
def mapSubtypesGo (reg : List String) : List PVal → Except String (List PVal)
  | [] => .ok []
  | .dict es :: rest =>
    match alookup es "dtype" with
    | some dv =>
      match mapSubtypesGo reg rest with
      | .ok rest' => .ok (.dict (upsert es "dtype" (getType reg dv)) :: rest')
      | .error e => .error e
    | Option.none =>
      .error "Defs keys with multiple types must define the dtype for each explicitly"
  | _ :: _ =>
    .error "Defs keys with multiple types must define the dtype for each explicitly"

/-- `var.py::Var.__setattr__.__setattr__` for the `subtypes` key: each
subtype dict must declare a `dtype`, which is converted in place;
failures raise. Non-dict entries raise one way or another; the
messages are approximate. -/
def mapSubtypes (reg : List String) : PVal → Except String PVal
  | .list subs =>
    (mapSubtypesGo reg subs).map .list
  | .null => .ok .null
  | .str s => if s.isEmpty then .ok (.str s) else
      .error "Defs keys with multiple types must define the dtype for each explicitly"
  | .dict es => if es.isEmpty then .ok (.dict es) else
      .error "Defs keys with multiple types must define the dtype for each explicitly"
  | _ => .error "object is not iterable"

/-- `var.py::Var.__setattr__`: the `value` key runs the replacement
pipeline (a magic string would consult the global config and is
outside this model; the reserved backslash and plain values are
modelled), `dtype` is converted through `getType`, `subtypes` is
checked and converted, and every other key is stored verbatim
(unknown keys land in `__dict__`, modelled by `extra`; the internal
`_skip_checks` flag is kept as its truth value). -/
def setattrV (reg : List String) (v : VarM) (key : String) (val : PVal) :
    Except String VarM :=
  if key = "value" then
    match val with
    | .str s =>
      if s = "\\" then
        .ok { v with
          value := .null
          original := (.str s)
          missing := (.bool true)
          skipChecks := false }
      else if (findMagics s.toList).isEmpty then
        .ok { v with
          value := (.str s)
          missing := (.bool false)
          skipChecks := false }
      else .error "magic-string value assignment needs the global config"
    | .list xs =>
      if hasMagicStrList xs then
        .error "magic-string value assignment needs the global config"
      else
        .ok { v with
          value := (.list xs)
          original := (.list xs)
          missing := (.bool false)
          skipChecks := false }
    | w =>
      .ok { v with
        value := w
        missing := (.bool (w = .null))
        skipChecks := false }
  else if key = "dtype" then .ok { v with dtype := getType reg val }
  else if key = "subtypes" then
    (mapSubtypes reg val).map fun sv => { v with subtypes := sv }
  else if key = "default" then .ok { v with default := val }
  else if key = "original" then .ok { v with original := val }
  else if key = "example" then .ok { v with exmpl := val }
  else if key = "required" then .ok { v with required := val }
  else if key = "missing" then .ok { v with missing := val }
  else if key = "strict" then .ok { v with strict := val }
  else if key = "checks" then .ok { v with checks := val }
  else if key = "_skip_checks" then .ok { v with skipChecks := val.truthy }
  else .ok { v with extra := upsert v.extra key val }

/-- Can `for subval in value:` iterate this value? `Null` iterates
nothing, strings/lists/dicts iterate (their prim elements have no
`applyDefinition`, the loop is a no-op); scalars raise `TypeError`. -/
def iterableV : PVal → Bool
  | .null => true
  | .str _ => true
  | .list _ => true
  | .dict _ => true
  | _ => false

/-- One entry of `Var.applyDefinition` (`var.py` lines 395-413):
`items` walks the (already-computed) value, any other key is
`setattr`, and a `default` assignment also fills a still-`Null`
`original`. -/
def stepVar (reg : List String) (value0 : PVal) (v : VarM) (key : String)
    (val : PVal) : Except String VarM :=
  if key = "items" then
    if iterableV value0 then .ok v else .error "object is not iterable"
  else
    match setattrV reg v key val with
    | .ok v' =>
      if key = "default" ∧ v'.original = .null then
        .ok { v' with original := val }
      else .ok v'
    | .error e => .error e

/-- The entry loop of `Var.applyDefinition`, with `value0` the value
computed once at entry (`value = self.getValue()`). -/
def applyVarGo (reg : List String) (value0 : PVal) :
    VarM → List (String × PVal) → Except String VarM
  | v, [] => .ok v
  | v, (key, val) :: rest =>
    match stepVar reg value0 v key val with
    | .ok v' => applyVarGo reg value0 v' rest
    | .error e => .error e

/-- `var.py::Var.applyDefinition`. -/
def applyVarDefs (reg : List String) (v : VarM)
    (defs : List (String × PVal)) : Except String VarM :=
  applyVarGo reg v.getValue v defs

/-! ## `sect.py` — `Sect.applyDefinition`, `_setdefs` and `_setdata`

A config tree node is a `Var` leaf or a `Sect` with its `_type`
string, stored `_defs`, `_miss` flag and insertion-ordered children
(`sect.py` lines 47-141, 391-509, 537-557). -/

/-- A node of the config tree. -/
inductive SNode where
  | var (v : VarM)
  | sect (ty : String) (df : PVal) (ms : Bool) (ch : List (String × SNode))

/-- `key.startswith('.')`. -/
def isDotKey (s : String) : Bool :=
  match s.toList with
  | c :: _ => c == '.'
  | _ => false

/-- `key[1:]` for a dot key. -/
def dropDot (s : String) : String :=
  match s.toList with
  | c :: ks => if c == '.' then String.mk ks else s
  | _ => s

/-- `var.py::Var.__init__` as `sect.py::_setdata` calls it: only
`value` and the `missing` kwarg vary, every other parameter keeps its
default (naming/debug metadata is out of scope of this model).
Attribute defaults are stored through `__setattr__` (`Null` dtype and
subtypes and the empty check list are fixed points of the
conversions), `original` is set to the input value, and the final
`value` assignment goes through the replacement pipeline
(`Var.__setattr__`) only when `replace and not missing`. -/
def varInit (reg : List String) (value : PVal) (ms : Bool) :
    Except String VarM :=
  let base : VarM :=
    { value := .null, original := value, default := .null, exmpl := .null,
      dtype := .null, subtypes := .null, required := .bool false,
      missing := .bool ms, strict := .bool false, checks := .list [],
      skipChecks := false, extra := [] }
  if ms then .ok { base with value := value }
  else setattrV reg base "value" value

/-- `sect.py::Sect._setdefs` value synthesis for a missing dot key:
`dtype == 'list'` flips the parent `_type` to `"List"` (the returned
flag) and builds `repeat` copies of `{}` or `Null` depending on
whether the item definitions carry dot keys; `dtype == 'dict'` builds
one empty dict per `repeat` key; otherwise the value is `{}` when the
definitions carry dot keys and `Null` when not. A non-integer
`repeat` under a list dtype, a non-list `repeat` under a dict dtype
and non-dict `items` raise in Python and are errors here. -/
def synthValue (es : List (String × PVal)) : Except String (Bool × PVal) :=
  match alookup es "dtype" with
  | some (.str "list") =>
    match (match alookup es "repeat" with
           | Option.none => some 0
           | some (.int k) => some k.toNat
           | some (.bool b) => some (if b then 1 else 0)
           | _ => Option.none) with
    | Option.none => .error "range expects an integer"
    | some n =>
      match (match alookup es "items" with
             | Option.none => some es
             | some (.dict is) => some is
             | _ => Option.none) with
      | Option.none => .error "items definitions must be a dict"
      | some subdefs =>
        let subval :=
          if subdefs.any (fun p => isDotKey p.1) then PVal.dict []
          else PVal.null
        .ok (true, .list (List.replicate n subval))
  | some (.str "dict") =>
    match (match alookup es "repeat" with
           | Option.none => some []
           | some (.list ks) => some ks
           | _ => Option.none) with
    | Option.none => .error "repeat must be a list of keys"
    | some ks =>
      .ok (false, .dict (ks.map fun k => (PVal.pyStr k, PVal.dict [])))
  | _ =>
    .ok (false,
      if es.any (fun p => isDotKey p.1) then PVal.dict [] else PVal.null)

mutual

/-- `sect.py::_setdata` on a fresh key: a dict becomes a child `Sect`
(its entries set through `_setdata` again, without the `missing`
kwarg), a list becomes a `Sect` with `_type = "List"` and integer
keys, anything else becomes a `Var`. -/
def buildNode (reg : List String) : Bool → PVal → Except String SNode
  | ms, .dict es =>
    match buildChildren reg es with
    | .ok ch => .ok (.sect "Dict" (.dict []) ms ch)
    | .error e => .error e
  | ms, .list xs =>
    match buildList reg 0 xs with
    | .ok ch => .ok (.sect "List" (.dict []) ms ch)
    | .error e => .error e
  | ms, v =>
    match varInit reg v ms with
    | .ok vr => .ok (.var vr)
    | .error e => .error e

/-- `Sect.__init__` over dict data: `_setdata(key, value)` per entry. -/
def buildChildren (reg : List String) :
    List (String × PVal) → Except String (List (String × SNode))
  | [] => .ok []
  | (k, v) :: rest =>
    match buildNode reg false v with
    | .ok c =>
      match buildChildren reg rest with
      | .ok cs => .ok ((k, c) :: cs)
      | .error e => .error e
    | .error e => .error e

/-- `Sect.__init__` over list data: `_setdata(i, value)` per element
(integer keys, rendered as strings in this model). -/
def buildList (reg : List String) :
    Nat → List PVal → Except String (List (String × SNode))
  | _, [] => .ok []
  | i, v :: rest =>
    match buildNode reg false v with
    | .ok c =>
      match buildList reg (i + 1) rest with
      | .ok cs => .ok ((toString i, c) :: cs)
      | .error e => .error e
    | .error e => .error e

end

/-- The `items` loop of `Sect.applyDefinition`: apply the same
definitions to every child, in order. -/
def childrenApply (applyN : SNode → Except String SNode) :
    List (String × SNode) → Except String (List (String × SNode))
  | [] => .ok []
  | (k, c) :: rest =>
    match applyN c with
    | .ok c2 =>
      match childrenApply applyN rest with
      | .ok r => .ok ((k, c2) :: r)
      | .error e => .error e
    | .error e => .error e

/-- A definitions value viewed as a dict (`.items()`/`.get()` require
one). -/
def asDict : PVal → Option (List (String × PVal))
  | .dict es => some es
  | _ => Option.none

/-- The entry loop of `Sect.applyDefinition` (`sect.py` lines
543-556), with `applyN` the recursive per-node application: a dot key
recurses into the existing child or synthesizes it (`_setdefs`, whose
`_setdata` tail applies the definitions to the new child only when
they are non-empty — Python's `if defs:`); `items` applies its
definitions to every child; any other key is ignored. Definition
values must be dicts (non-dict values raise in Python; string values
would go through a YAML load, out of scope here). The running
`(_type, children)` state is threaded. -/
def dotCreate (reg : List String)
    (applyN : SNode → List (String × PVal) → Except String SNode)
    (ty : String) (ch : List (String × SNode)) (key : String)
    (es : List (String × PVal)) :
    Except String (String × List (String × SNode)) :=
  match synthValue es with
  | .error e => .error e
  | .ok (isList, v0) =>
    match buildNode reg true v0 with
    | .error e => .error e
    | .ok child0 =>
      (if es.isEmpty then Except.ok child0 else applyN child0 es).map
        (fun c2 => ((if isList then "List" else ty),
          ch ++ [(dropDot key, c2)]))

/-- One dot-key entry of `Sect.applyDefinition`: recurse into the
existing child (`self.get(key, var=True).applyDefinition(val)`) or
create it through `_setdefs`/`dotCreate`. -/
def dotStep (reg : List String)
    (applyN : SNode → List (String × PVal) → Except String SNode)
    (ty : String) (ch : List (String × SNode)) (key : String)
    (es : List (String × PVal)) :
    Except String (String × List (String × SNode)) :=
  match alookup ch (dropDot key) with
  | some child =>
    (applyN child es).map (fun c2 => (ty, upsert ch (dropDot key) c2))
  | Option.none => dotCreate reg applyN ty ch key es

/-- The entry loop of `Sect.applyDefinition` (`sect.py` lines
543-556), with `applyN` the recursive per-node application: a dot key
goes through `dotStep`, `items` applies its definitions to every
child, and any other key is ignored. Definition values must be dicts
(non-dict values raise in Python; string values would go through a
YAML load, out of scope here). The running `(_type, children)` state
is threaded. -/
def sectGo (reg : List String)
    (applyN : SNode → List (String × PVal) → Except String SNode) :
    String → List (String × SNode) → List (String × PVal) →
    Except String (String × List (String × SNode))
  | ty, ch, [] => .ok (ty, ch)
  | ty, ch, (key, val) :: rest =>
    if isDotKey key then
      match asDict val with
      | some es =>
        match dotStep reg applyN ty ch key es with
        | .ok (ty2, ch2) => sectGo reg applyN ty2 ch2 rest
        | .error e => .error e
      | Option.none => .error "definitions for a key must be a dict"
    else if key = "items" then
      match asDict val with
      | some es =>
        match childrenApply (fun c => applyN c es) ch with
        | .ok ch2 => sectGo reg applyN ty ch2 rest
        | .error e => .error e
      | Option.none => .error "items definitions must be a dict"
    else sectGo reg applyN ty ch rest

/-- Fuel-driven `applyDefinition` on a node: a `Var` runs
`Var.applyDefinition`, a `Sect` stores the definitions in `_defs` and
runs the entry loop. The fuel only bounds the nesting depth of the
definitions object (each recursive call descends into a sub-dict of
the definitions), so any fuel above that depth is never exhausted. -/
def applyNodeF (reg : List String) : Nat → SNode → List (String × PVal) →
    Except String SNode
  | 0, _, _ => .error "applyDefinition recursion limit"
  | fuel + 1, .var v, es =>
    match applyVarDefs reg v es with
    | .ok v2 => .ok (.var v2)
    | .error e => .error e
  | fuel + 1, .sect ty _ ms ch, es =>
    match sectGo reg (applyNodeF reg fuel) ty ch es with
    | .ok (ty2, ch2) => .ok (.sect ty2 (.dict es) ms ch2)
    | .error e => .error e

mutual

/-- Nesting depth of a definitions value along dot and `items`
edges. -/
def defsDepth : PVal → Nat
  | .dict es => defsDepthL es
  | _ => 0

/-- Nesting depth of a definitions dict. -/
def defsDepthL : List (String × PVal) → Nat
  | [] => 0
  | (k, v) :: rest =>
    max (if isDotKey k || k = "items" then defsDepth v + 1 else 0)
      (defsDepthL rest)

end

/-- `Sect.applyDefinition` (and `Var.applyDefinition` on a leaf) on a
node, with fuel strictly above the definitions' nesting depth. -/
def applyNodeDefs (reg : List String) (t : SNode)
    (defs : List (String × PVal)) : Except String SNode :=
  applyNodeF reg (defsDepthL defs + 1) t defs

/-- Pairwise-distinct keys of an association list. -/
def keysUniq : List (String × PVal) → Bool
  | [] => true
  | (k, _) :: rest => (alookup rest k).isNone && keysUniq rest

mutual

/-- Well-formed definitions value: a dict whose own keys are
well-behaved (see `defsWFL`) and whose entries are well-formed. -/
def defsWF : PVal → Bool
  | .dict es =>
    keysUniq es &&
    (alookup es "value").isNone &&
    (alookup es "original").isNone &&
    !(es.any (fun p => isDotKey p.1) && (alookup es "items").isSome) &&
    !((alookup es "items").isSome && (alookup es "default").isSome) &&
    defsWFEntries es
  | _ => false

/-- The per-entry recursion of `defsWF`: every dot-key or `items`
value is a well-formed definitions dict in turn. -/
def defsWFEntries : List (String × PVal) → Bool
  | [] => true
  | (k, v) :: rest =>
    (if isDotKey k || k = "items" then defsWF v else true) &&
    defsWFEntries rest

end

/-- Well-formed definitions dict: pairwise-distinct keys, `value` and
`original` never assigned directly, dot-child keys and `items` never
mixed at one level, `items` never combined with `default`, entries
recursively well-formed (same as `defsWF` on the dict). -/
def defsWFL (es : List (String × PVal)) : Bool :=
  keysUniq es &&
  (alookup es "value").isNone &&
  (alookup es "original").isNone &&
  !(es.any (fun p => isDotKey p.1) && (alookup es "items").isSome) &&
  !((alookup es "items").isSome && (alookup es "default").isSome) &&
  defsWFEntries es

/-- The `required` metadata of a named `Var` child, used to observe a
tree. -/
def childRequired (t : SNode) (k : String) : Option PVal :=
  match t with
  | .sect _ _ _ ch =>
    match alookup ch k with
    | some (.var v) => some v.required
    | _ => Option.none
  | _ => Option.none

/-- A node after `applyDefinition` with an empty definitions dict:
only a `Sect`'s stored `_defs` is (re)written. -/
def dfReset : SNode → SNode
  | .var v => .var v
  | .sect ty _ ms ch => .sect ty (.dict []) ms ch

/-! ### Association-list helper lemmas -/

theorem upsert_id {α : Type} (es : List (String × α)) (k : String) (v : α)
    (h : alookup es k = some v) : upsert es k v = es := by
  induction es with
  | nil => simp [alookup] at h
  | cons e rest ih =>
    obtain ⟨k', v'⟩ := e
    by_cases hk : k' = k
    · have : v' = v := by simpa [alookup, hk] using h
      simp [upsert, hk, this]
    · have := ih (by simpa [alookup, hk] using h)
      simp [upsert, hk, this]

theorem alookup_append_none {α : Type} (es es2 : List (String × α))
    (k : String) (h : alookup es k = Option.none) :
    alookup (es ++ es2) k = alookup es2 k := by
  induction es with
  | nil => simp
  | cons e rest ih =>
    obtain ⟨k', v'⟩ := e
    by_cases hk : k' = k
    · simp [alookup, hk] at h
    · simp only [alookup, hk, if_false, List.cons_append] at h ⊢
      exact ih h

theorem alookup_append_ne {α : Type} (es : List (String × α))
    (k k' : String) (v : α) (h : k' ≠ k) :
    alookup (es ++ [(k', v)]) k = alookup es k := by
  induction es with
  | nil => simp [alookup, h]
  | cons e rest ih =>
    obtain ⟨k0, v0⟩ := e
    by_cases hk : k0 = k
    · simp [alookup, hk]
    · simp only [List.cons_append, alookup, hk, if_false]
      exact ih

theorem alookup_isSome_of_mem {α : Type} (es : List (String × α))
    (k : String) (v : α) (h : (k, v) ∈ es) : (alookup es k).isSome := by
  induction es with
  | nil => simp at h
  | cons e rest ih =>
    obtain ⟨k', v'⟩ := e
    by_cases hk : k' = k
    · simp [alookup, hk]
    · simp only [alookup, hk, if_false]
      rcases List.mem_cons.mp h with he | hm
      · cases he; simp at hk
      · exact ih hm

theorem alookup_none_mem {α : Type} (es : List (String × α)) (k : String)
    (h : alookup es k = Option.none) :
    ∀ e ∈ es, e.1 ≠ k := by
  intro e he
  induction es with
  | nil => simp at he
  | cons e0 rest ih =>
    obtain ⟨k', v'⟩ := e0
    by_cases hk : k' = k
    · simp [alookup, hk] at h
    · simp only [alookup, hk, if_false] at h
      rcases List.mem_cons.mp he with he0 | hm
      · subst he0; exact hk
      · exact ih h hm

/-- Dot keys with the same remainder are the same key. -/
theorem dropDot_inj (a b : String) (ha : isDotKey a = true)
    (hb : isDotKey b = true) (h : dropDot a = dropDot b) : a = b := by
  rw [isDotKey] at ha hb
  rw [dropDot, dropDot] at h
  cases hla : a.toList with
  | nil => rw [hla] at ha; simp at ha
  | cons c cs =>
    cases hlb : b.toList with
    | nil => rw [hlb] at hb; simp at hb
    | cons d ds =>
      rw [hla] at ha h
      rw [hlb] at hb h
      simp only [beq_iff_eq] at ha hb
      subst ha
      subst hb
      have h' : String.mk cs = String.mk ds := by simpa using h
      have hcd : cs = ds := by
        have := congrArg String.toList h'
        simpa [String.toList] using this
      have hab : a.toList = b.toList := by
        rw [hla, hlb, hcd]
      cases a; cases b
      exact congrArg String.mk (by simpa [String.toList] using hab)

/-! ### One `Var.applyDefinition` entry: frame and fixed-point facts -/

/-- Everything one non-`value` definitions entry leaves untouched:
the stored `value`, every dispatch attribute other than the entry's
own (a `default` entry may also fill `original`), and every other
`__dict__` slot. -/
theorem stepVar_frame (reg : List String) (v0 : PVal) (v v1 : VarM)
    (key : String) (val : PVal)
    (h : stepVar reg v0 v key val = .ok v1) (hv : key ≠ "value") :
    v1.value = v.value ∧
    (key ≠ "dtype" → v1.dtype = v.dtype) ∧
    (key ≠ "subtypes" → v1.subtypes = v.subtypes) ∧
    (key ≠ "default" → v1.default = v.default) ∧
    (key ≠ "default" → key ≠ "original" → v1.original = v.original) ∧
    (key ≠ "example" → v1.exmpl = v.exmpl) ∧
    (key ≠ "required" → v1.required = v.required) ∧
    (key ≠ "missing" → v1.missing = v.missing) ∧
    (key ≠ "strict" → v1.strict = v.strict) ∧
    (key ≠ "checks" → v1.checks = v.checks) ∧
    (key ≠ "_skip_checks" → v1.skipChecks = v.skipChecks) ∧
    (∀ k, k ≠ key → alookup v1.extra k = alookup v.extra k) := by
  rw [stepVar] at h
  by_cases hit : key = "items"
  · rw [if_pos hit] at h
    split at h
    · cases h
      exact ⟨rfl, fun _ => rfl, fun _ => rfl, fun _ => rfl, fun _ _ => rfl,
        fun _ => rfl, fun _ => rfl, fun _ => rfl, fun _ => rfl, fun _ => rfl,
        fun _ => rfl, fun _ _ => rfl⟩
    · cases h
  · rw [if_neg hit] at h
    cases hs : setattrV reg v key val with
    | error e =>
      rw [hs] at h
      have h' : (Except.error e : Except String VarM) = .ok v1 := h
      cases h'
    | ok v' =>
      rw [hs] at h
      have h' : (if key = "default" ∧ v'.original = PVal.null then
          Except.ok { v' with original := val } else Except.ok v') =
          Except.ok v1 := h
      clear h
      rw [setattrV.eq_def] at hs
      rw [if_neg hv] at hs
      have hframe :
          v'.value = v.value ∧
          (key ≠ "dtype" → v'.dtype = v.dtype) ∧
          (key ≠ "subtypes" → v'.subtypes = v.subtypes) ∧
          (key ≠ "default" → v'.default = v.default) ∧
          (key ≠ "original" → v'.original = v.original) ∧
          (key ≠ "example" → v'.exmpl = v.exmpl) ∧
          (key ≠ "required" → v'.required = v.required) ∧
          (key ≠ "missing" → v'.missing = v.missing) ∧
          (key ≠ "strict" → v'.strict = v.strict) ∧
          (key ≠ "checks" → v'.checks = v.checks) ∧
          (key ≠ "_skip_checks" → v'.skipChecks = v.skipChecks) ∧
          (∀ k, k ≠ key → alookup v'.extra k = alookup v.extra k) := by
        by_cases h1 : key = "dtype"
        · rw [if_pos h1] at hs
          cases hs
          exact ⟨rfl, fun hk => absurd h1 hk, fun _ => rfl, fun _ => rfl,
            fun _ => rfl, fun _ => rfl, fun _ => rfl, fun _ => rfl,
            fun _ => rfl, fun _ => rfl, fun _ => rfl, fun _ _ => rfl⟩
        rw [if_neg h1] at hs
        by_cases h2 : key = "subtypes"
        · rw [if_pos h2] at hs
          cases hm : mapSubtypes reg val with
          | error e =>
            rw [hm] at hs
            simp only [Except.map] at hs
            cases hs
          | ok sv =>
            rw [hm] at hs
            simp only [Except.map] at hs
            cases hs
            exact ⟨rfl, fun _ => rfl, fun hk => absurd h2 hk, fun _ => rfl,
              fun _ => rfl, fun _ => rfl, fun _ => rfl, fun _ => rfl,
              fun _ => rfl, fun _ => rfl, fun _ => rfl, fun _ _ => rfl⟩
        rw [if_neg h2] at hs
        by_cases h3 : key = "default"
        · rw [if_pos h3] at hs
          cases hs
          exact ⟨rfl, fun _ => rfl, fun _ => rfl, fun hk => absurd h3 hk,
            fun _ => rfl, fun _ => rfl, fun _ => rfl, fun _ => rfl,
            fun _ => rfl, fun _ => rfl, fun _ => rfl, fun _ _ => rfl⟩
        rw [if_neg h3] at hs
        by_cases h4 : key = "original"
        · rw [if_pos h4] at hs
          cases hs
          exact ⟨rfl, fun _ => rfl, fun _ => rfl, fun _ => rfl,
            fun hk => absurd h4 hk, fun _ => rfl, fun _ => rfl, fun _ => rfl,
            fun _ => rfl, fun _ => rfl, fun _ => rfl, fun _ _ => rfl⟩
        rw [if_neg h4] at hs
        by_cases h5 : key = "example"
        · rw [if_pos h5] at hs
          cases hs
          exact ⟨rfl, fun _ => rfl, fun _ => rfl, fun _ => rfl, fun _ => rfl,
            fun hk => absurd h5 hk, fun _ => rfl, fun _ => rfl, fun _ => rfl,
            fun _ => rfl, fun _ => rfl, fun _ _ => rfl⟩
        rw [if_neg h5] at hs
        by_cases h6 : key = "required"
        · rw [if_pos h6] at hs
          cases hs
          exact ⟨rfl, fun _ => rfl, fun _ => rfl, fun _ => rfl, fun _ => rfl,
            fun _ => rfl, fun hk => absurd h6 hk, fun _ => rfl, fun _ => rfl,
            fun _ => rfl, fun _ => rfl, fun _ _ => rfl⟩
        rw [if_neg h6] at hs
        by_cases h7 : key = "missing"
        · rw [if_pos h7] at hs
          cases hs
          exact ⟨rfl, fun _ => rfl, fun _ => rfl, fun _ => rfl, fun _ => rfl,
            fun _ => rfl, fun _ => rfl, fun hk => absurd h7 hk, fun _ => rfl,
            fun _ => rfl, fun _ => rfl, fun _ _ => rfl⟩
        rw [if_neg h7] at hs
        by_cases h8 : key = "strict"
        · rw [if_pos h8] at hs
          cases hs
          exact ⟨rfl, fun _ => rfl, fun _ => rfl, fun _ => rfl, fun _ => rfl,
            fun _ => rfl, fun _ => rfl, fun _ => rfl, fun hk => absurd h8 hk,
            fun _ => rfl, fun _ => rfl, fun _ _ => rfl⟩
        rw [if_neg h8] at hs
        by_cases h9 : key = "checks"
        · rw [if_pos h9] at hs
          cases hs
          exact ⟨rfl, fun _ => rfl, fun _ => rfl, fun _ => rfl, fun _ => rfl,
            fun _ => rfl, fun _ => rfl, fun _ => rfl, fun _ => rfl,
            fun hk => absurd h9 hk, fun _ => rfl, fun _ _ => rfl⟩
        rw [if_neg h9] at hs
        by_cases h10 : key = "_skip_checks"
        · rw [if_pos h10] at hs
          cases hs
          exact ⟨rfl, fun _ => rfl, fun _ => rfl, fun _ => rfl, fun _ => rfl,
            fun _ => rfl, fun _ => rfl, fun _ => rfl, fun _ => rfl,
            fun _ => rfl, fun hk => absurd h10 hk, fun _ _ => rfl⟩
        rw [if_neg h10] at hs
        cases hs
        refine ⟨rfl, fun _ => rfl, fun _ => rfl, fun _ => rfl, fun _ => rfl,
          fun _ => rfl, fun _ => rfl, fun _ => rfl, fun _ => rfl,
          fun _ => rfl, fun _ => rfl, ?_⟩
        intro k hk
        exact alookup_upsert_ne _ _ _ _ (Ne.symm hk)
      obtain ⟨f1, f2, f3, f4, f5, f6, f7, f8, f9, f10, f11, f12⟩ := hframe
      by_cases hdef : key = "default" ∧ v'.original = PVal.null
      · rw [if_pos hdef] at h'
        cases h'
        exact ⟨f1, f2, f3, f4, fun hk => absurd hdef.1 hk, f6, f7, f8, f9,
          f10, f11, f12⟩
      · rw [if_neg hdef] at h'
        cases h'
        exact ⟨f1, f2, f3, f4, fun _ => f5, f6, f7, f8, f9, f10, f11, f12⟩
/-- What one definitions entry guarantees about the state right after
it runs; re-running the entry on any state satisfying this is a
no-op. -/
def stepCond (reg : List String) (v0' : PVal) (key : String) (val : PVal)
    (u : VarM) : Prop :=
  if key = "items" then iterableV v0' = true
  else if key = "dtype" then u.dtype = getType reg val
  else if key = "subtypes" then mapSubtypes reg val = .ok u.subtypes
  else if key = "default" then
    u.default = val ∧ (u.original = .null → val = .null)
  else if key = "original" then u.original = val
  else if key = "example" then u.exmpl = val
  else if key = "required" then u.required = val
  else if key = "missing" then u.missing = val
  else if key = "strict" then u.strict = val
  else if key = "checks" then u.checks = val
  else if key = "_skip_checks" then u.skipChecks = val.truthy
  else alookup u.extra key = some val

/-- Running one non-`value`, non-`original` entry establishes its
fixed-point condition at the resulting state. -/
theorem stepVar_post (reg : List String) (v0 v0' : PVal) (v v1 : VarM)
    (key : String) (val : PVal)
    (h : stepVar reg v0 v key val = .ok v1) (hv : key ≠ "value")
    (hit : key = "items" → iterableV v0' = true) :
    stepCond reg v0' key val v1 := by
  rw [stepVar] at h
  rw [stepCond]
  by_cases h0 : key = "items"
  · rw [if_pos h0]
    exact hit h0
  rw [if_neg h0]
  rw [if_neg h0] at h
  cases hs : setattrV reg v key val with
  | error e =>
    rw [hs] at h
    have h' : (Except.error e : Except String VarM) = .ok v1 := h
    cases h'
  | ok v' =>
    rw [hs] at h
    have h' : (if key = "default" ∧ v'.original = PVal.null then
        Except.ok { v' with original := val } else Except.ok v') =
        Except.ok v1 := h
    clear h
    rw [setattrV.eq_def] at hs
    rw [if_neg hv] at hs
    by_cases h1 : key = "dtype"
    · rw [if_pos h1] at hs
      cases hs
      rw [if_pos h1]
      rw [if_neg (by simp [h1])] at h'
      cases h'
      rfl
    rw [if_neg h1] at hs
    rw [if_neg h1]
    by_cases h2 : key = "subtypes"
    · rw [if_pos h2] at hs
      cases hm : mapSubtypes reg val with
      | error e =>
        rw [hm] at hs
        simp only [Except.map] at hs
        cases hs
      | ok sv =>
        rw [hm] at hs
        simp only [Except.map] at hs
        cases hs
        rw [if_pos h2]
        rw [if_neg (by simp [h2])] at h'
        cases h'
        rfl
    rw [if_neg h2] at hs
    rw [if_neg h2]
    by_cases h3 : key = "default"
    · rw [if_pos h3] at hs
      cases hs
      rw [if_pos h3]
      by_cases ho : v.original = PVal.null
      · rw [if_pos ⟨h3, ho⟩] at h'
        cases h'
        exact ⟨rfl, fun h => h⟩
      · rw [if_neg (fun hc => ho hc.2)] at h'
        cases h'
        exact ⟨rfl, fun h => absurd h ho⟩
    rw [if_neg h3] at hs
    rw [if_neg h3]
    by_cases h4 : key = "original"
    · rw [if_pos h4] at hs
      cases hs
      rw [if_pos h4]
      rw [if_neg (fun hc => h3 hc.1)] at h'
      cases h'
      rfl
    rw [if_neg h4] at hs
    rw [if_neg h4]
    by_cases h5 : key = "example"
    · rw [if_pos h5] at hs
      cases hs
      rw [if_pos h5]
      rw [if_neg (fun hc => h3 hc.1)] at h'
      cases h'
      rfl
    rw [if_neg h5] at hs
    rw [if_neg h5]
    by_cases h6 : key = "required"
    · rw [if_pos h6] at hs
      cases hs
      rw [if_pos h6]
      rw [if_neg (fun hc => h3 hc.1)] at h'
      cases h'
      rfl
    rw [if_neg h6] at hs
    rw [if_neg h6]
    by_cases h7 : key = "missing"
    · rw [if_pos h7] at hs
      cases hs
      rw [if_pos h7]
      rw [if_neg (fun hc => h3 hc.1)] at h'
      cases h'
      rfl
    rw [if_neg h7] at hs
    rw [if_neg h7]
    by_cases h8 : key = "strict"
    · rw [if_pos h8] at hs
      cases hs
      rw [if_pos h8]
      rw [if_neg (fun hc => h3 hc.1)] at h'
      cases h'
      rfl
    rw [if_neg h8] at hs
    rw [if_neg h8]
    by_cases h9 : key = "checks"
    · rw [if_pos h9] at hs
      cases hs
      rw [if_pos h9]
      rw [if_neg (fun hc => h3 hc.1)] at h'
      cases h'
      rfl
    rw [if_neg h9] at hs
    rw [if_neg h9]
    by_cases h10 : key = "_skip_checks"
    · rw [if_pos h10] at hs
      cases hs
      rw [if_pos h10]
      rw [if_neg (fun hc => h3 hc.1)] at h'
      cases h'
      rfl
    rw [if_neg h10] at hs
    rw [if_neg h10]
    cases hs
    rw [if_neg (fun hc => h3 hc.1)] at h'
    cases h'
    exact alookup_upsert_self _ _ _

/-- A state satisfying an entry's fixed-point condition is left
unchanged when the entry is re-applied. -/
theorem stepVar_of_cond (reg : List String) (v0' : PVal) (w : VarM)
    (key : String) (val : PVal) (hv : key ≠ "value")
    (hc : stepCond reg v0' key val w) :
    stepVar reg v0' w key val = .ok w := by
  rw [stepCond] at hc
  by_cases h0 : key = "items"
  · rw [if_pos h0] at hc
    subst h0
    rw [stepVar, if_pos rfl, if_pos hc]
  rw [if_neg h0] at hc
  by_cases h1 : key = "dtype"
  · rw [if_pos h1] at hc
    subst h1
    show Except.ok { w with dtype := getType reg val } = Except.ok w
    rw [← hc]
  rw [if_neg h1] at hc
  by_cases h2 : key = "subtypes"
  · rw [if_pos h2] at hc
    subst h2
    rw [stepVar, if_neg (by decide), setattrV.eq_def, if_neg (by decide),
      if_neg (by decide), if_pos rfl, hc]
    rfl
  rw [if_neg h2] at hc
  by_cases h3 : key = "default"
  · rw [if_pos h3] at hc
    subst h3
    by_cases ho : w.original = PVal.null
    · have hv0 : val = PVal.null := hc.2 ho
      show (if ("default" : String) = "default" ∧
            ({ w with default := val } : VarM).original = PVal.null then
          Except.ok { w with default := val, original := val }
          else Except.ok { w with default := val }) = Except.ok w
      rw [if_pos ⟨rfl, ho⟩]
      nth_rewrite 1 [show val = w.original from hv0.trans ho.symm]
      nth_rewrite 1 [show val = w.default from hc.1.symm]
      rfl
    · show (if ("default" : String) = "default" ∧
            ({ w with default := val } : VarM).original = PVal.null then
          Except.ok { w with default := val, original := val }
          else Except.ok { w with default := val }) = Except.ok w
      rw [if_neg (fun hcc => ho hcc.2)]
      rw [show val = w.default from hc.1.symm]
  rw [if_neg h3] at hc
  by_cases h4 : key = "original"
  · rw [if_pos h4] at hc
    subst h4
    show Except.ok { w with original := val } = Except.ok w
    rw [← hc]
  rw [if_neg h4] at hc
  by_cases h5 : key = "example"
  · rw [if_pos h5] at hc
    subst h5
    show Except.ok { w with exmpl := val } = Except.ok w
    rw [← hc]
  rw [if_neg h5] at hc
  by_cases h6 : key = "required"
  · rw [if_pos h6] at hc
    subst h6
    show Except.ok { w with required := val } = Except.ok w
    rw [← hc]
  rw [if_neg h6] at hc
  by_cases h7 : key = "missing"
  · rw [if_pos h7] at hc
    subst h7
    show Except.ok { w with missing := val } = Except.ok w
    rw [← hc]
  rw [if_neg h7] at hc
  by_cases h8 : key = "strict"
  · rw [if_pos h8] at hc
    subst h8
    show Except.ok { w with strict := val } = Except.ok w
    rw [← hc]
  rw [if_neg h8] at hc
  by_cases h9 : key = "checks"
  · rw [if_pos h9] at hc
    subst h9
    show Except.ok { w with checks := val } = Except.ok w
    rw [← hc]
  rw [if_neg h9] at hc
  by_cases h10 : key = "_skip_checks"
  · rw [if_pos h10] at hc
    subst h10
    show Except.ok { w with skipChecks := val.truthy } = Except.ok w
    rw [← hc]
  rw [if_neg h10] at hc
  rw [stepVar, if_neg h0, setattrV.eq_def, if_neg hv, if_neg h1, if_neg h2,
    if_neg h3, if_neg h4, if_neg h5, if_neg h6, if_neg h7, if_neg h8,
    if_neg h9, if_neg h10]
  rw [upsert_id w.extra key val hc]
  show (if key = "default" ∧ w.original = PVal.null then
      Except.ok { w with original := val } else Except.ok w) = Except.ok w
  rw [if_neg (fun hcc => h3 hcc.1)]

/-- A later entry with a different key (and never `value` or
`original`) preserves an entry's fixed-point condition. -/
theorem stepCond_frame (reg : List String) (v0 v0' : PVal) (u u' : VarM)
    (key key' : String) (val val' : PVal)
    (hc : stepCond reg v0' key val u)
    (h : stepVar reg v0 u key' val' = .ok u')
    (hne : key ≠ key') (hko : key ≠ "original")
    (hv' : key' ≠ "value") (ho' : key' ≠ "original") :
    stepCond reg v0' key val u' := by
  obtain ⟨f1, f2, f3, f4, f5, f6, f7, f8, f9, f10, f11, f12⟩ :=
    stepVar_frame reg v0 u u' key' val' h hv'
  rw [stepCond] at hc ⊢
  by_cases h0 : key = "items"
  · rw [if_pos h0] at hc ⊢
    exact hc
  rw [if_neg h0] at hc ⊢
  by_cases h1 : key = "dtype"
  · rw [if_pos h1] at hc ⊢
    rw [f2 (fun hk => hne (h1.trans hk.symm))]
    exact hc
  rw [if_neg h1] at hc ⊢
  by_cases h2 : key = "subtypes"
  · rw [if_pos h2] at hc ⊢
    rw [f3 (fun hk => hne (h2.trans hk.symm))]
    exact hc
  rw [if_neg h2] at hc ⊢
  by_cases h3 : key = "default"
  · rw [if_pos h3] at hc ⊢
    have hd : key' ≠ "default" := fun hk => hne (h3.trans hk.symm)
    rw [f4 hd, f5 hd ho']
    exact hc
  rw [if_neg h3] at hc ⊢
  by_cases h4 : key = "original"
  · exact absurd h4 hko
  rw [if_neg h4] at hc ⊢
  by_cases h5 : key = "example"
  · rw [if_pos h5] at hc ⊢
    rw [f6 (fun hk => hne (h5.trans hk.symm))]
    exact hc
  rw [if_neg h5] at hc ⊢
  by_cases h6 : key = "required"
  · rw [if_pos h6] at hc ⊢
    rw [f7 (fun hk => hne (h6.trans hk.symm))]
    exact hc
  rw [if_neg h6] at hc ⊢
  by_cases h7 : key = "missing"
  · rw [if_pos h7] at hc ⊢
    rw [f8 (fun hk => hne (h7.trans hk.symm))]
    exact hc
  rw [if_neg h7] at hc ⊢
  by_cases h8 : key = "strict"
  · rw [if_pos h8] at hc ⊢
    rw [f9 (fun hk => hne (h8.trans hk.symm))]
    exact hc
  rw [if_neg h8] at hc ⊢
  by_cases h9 : key = "checks"
  · rw [if_pos h9] at hc ⊢
    rw [f10 (fun hk => hne (h9.trans hk.symm))]
    exact hc
  rw [if_neg h9] at hc ⊢
  by_cases h10 : key = "_skip_checks"
  · rw [if_pos h10] at hc ⊢
    rw [f11 (fun hk => hne (h10.trans hk.symm))]
    exact hc
  rw [if_neg h10] at hc ⊢
  rw [f12 key hne]
  exact hc

/-- A fixed-point condition survives the rest of the entry loop when
its key does not reappear. -/
theorem stepCond_through (reg : List String) (v0 v0' : PVal)
    (key : String) (val : PVal) (hko : key ≠ "original")
    (es : List (String × PVal)) :
    ∀ u w : VarM, applyVarGo reg v0 u es = .ok w →
    stepCond reg v0' key val u →
    (∀ e ∈ es, e.1 ≠ key ∧ e.1 ≠ "value" ∧ e.1 ≠ "original") →
    stepCond reg v0' key val w := by
  induction es with
  | nil =>
    intro u w h hc _
    rw [applyVarGo] at h
    cases h
    exact hc
  | cons e rest ih =>
    obtain ⟨k', val'⟩ := e
    intro u w h hc hall
    rw [applyVarGo] at h
    cases hstep : stepVar reg v0 u k' val' with
    | error e2 =>
      rw [hstep] at h
      have h2 : (Except.error e2 : Except String VarM) = .ok w := h
      cases h2
    | ok u1 =>
      rw [hstep] at h
      have h2 : applyVarGo reg v0 u1 rest = .ok w := h
      obtain ⟨hk1, hk2, hk3⟩ := hall (k', val') (List.mem_cons_self _ _)
      exact ih u1 w h2
        (stepCond_frame reg v0 v0' u u1 key k' val val' hc hstep
          (Ne.symm hk1) hko hk2 hk3)
        (fun e he => hall e (List.mem_cons_of_mem _ he))

/-- If every entry's fixed-point condition holds at a state, the
whole loop leaves that state unchanged. -/
theorem applyVarGo_of_cond (reg : List String) (v0' : PVal)
    (es : List (String × PVal)) :
    ∀ w : VarM,
    (∀ e ∈ es, e.1 ≠ "value" ∧ stepCond reg v0' e.1 e.2 w) →
    applyVarGo reg v0' w es = .ok w := by
  induction es with
  | nil =>
    intro w _
    rw [applyVarGo]
  | cons e rest ih =>
    obtain ⟨k', val'⟩ := e
    intro w hall
    obtain ⟨hv, hc⟩ := hall (k', val') (List.mem_cons_self _ _)
    rw [applyVarGo]
    rw [stepVar_of_cond reg v0' w k' val' hv hc]
    exact ih w (fun e he => hall e (List.mem_cons_of_mem _ he))

/-- After a successful entry loop every entry's fixed-point condition
holds at the final state (unique keys, no direct `value`/`original`
assignments). -/
theorem applyVarGo_post_all (reg : List String) (v0 v0' : PVal)
    (es : List (String × PVal)) :
    ∀ v w : VarM, applyVarGo reg v0 v es = .ok w →
    keysUniq es = true →
    (∀ e ∈ es, e.1 ≠ "value" ∧ e.1 ≠ "original") →
    ((alookup es "items").isSome → iterableV v0' = true) →
    ∀ e ∈ es, stepCond reg v0' e.1 e.2 w := by
  induction es with
  | nil =>
    intro v w _ _ _ _ e he
    cases he
  | cons e0 rest ih =>
    obtain ⟨k0, val0⟩ := e0
    intro v w h huniq hvo hiter e he
    rw [applyVarGo] at h
    cases hstep : stepVar reg v0 v k0 val0 with
    | error e2 =>
      rw [hstep] at h
      have h2 : (Except.error e2 : Except String VarM) = .ok w := h
      cases h2
    | ok v1 =>
      rw [hstep] at h
      have h2 : applyVarGo reg v0 v1 rest = .ok w := h
      have huniq2 : (alookup rest k0).isNone = true ∧ keysUniq rest = true := by
        rw [keysUniq] at huniq
        exact ⟨(Bool.and_eq_true _ _).mp huniq |>.1,
          (Bool.and_eq_true _ _).mp huniq |>.2⟩
      obtain ⟨hv0, ho0⟩ := hvo (k0, val0) (List.mem_cons_self _ _)
      rcases List.mem_cons.mp he with he0 | hmem
      · cases he0
        have hpost := stepVar_post reg v0 v0' v v1 k0 val0 hstep hv0
          (fun hk => hiter (by rw [alookup, if_pos hk]; rfl))
        refine stepCond_through reg v0 v0' k0 val0 ho0 rest v1 w h2 hpost ?_
        intro e he2
        refine ⟨?_, (hvo e (List.mem_cons_of_mem _ he2)).1,
          (hvo e (List.mem_cons_of_mem _ he2)).2⟩
        exact alookup_none_mem rest k0
          (Option.isNone_iff_eq_none.mp huniq2.1) e he2
      · refine ih v1 w h2 huniq2.2
          (fun e he2 => hvo e (List.mem_cons_of_mem _ he2)) ?_ e hmem
        intro hsome
        refine hiter ?_
        rw [alookup]
        by_cases hk : k0 = "items"
        · rw [if_pos hk]; rfl
        · rw [if_neg hk]; exact hsome

/-- The stored `value` is untouched by a loop that never assigns
`value`. -/
theorem applyVarGo_value_frame (reg : List String) (v0 : PVal)
    (es : List (String × PVal)) :
    ∀ v w : VarM, applyVarGo reg v0 v es = .ok w →
    (∀ e ∈ es, e.1 ≠ "value") →
    w.value = v.value := by
  induction es with
  | nil =>
    intro v w h _
    rw [applyVarGo] at h
    cases h
    rfl
  | cons e0 rest ih =>
    obtain ⟨k0, val0⟩ := e0
    intro v w h hall
    rw [applyVarGo] at h
    cases hstep : stepVar reg v0 v k0 val0 with
    | error e2 =>
      rw [hstep] at h
      have h2 : (Except.error e2 : Except String VarM) = .ok w := h
      cases h2
    | ok v1 =>
      rw [hstep] at h
      have h2 : applyVarGo reg v0 v1 rest = .ok w := h
      have hfr := stepVar_frame reg v0 v v1 k0 val0 hstep
        (hall (k0, val0) (List.mem_cons_self _ _))
      rw [ih v1 w h2 (fun e he => hall e (List.mem_cons_of_mem _ he))]
      exact hfr.1

/-- The `default` attribute is untouched by a loop that never assigns
`value` or `default`. -/
theorem applyVarGo_default_frame (reg : List String) (v0 : PVal)
    (es : List (String × PVal)) :
    ∀ v w : VarM, applyVarGo reg v0 v es = .ok w →
    (∀ e ∈ es, e.1 ≠ "value" ∧ e.1 ≠ "default") →
    w.default = v.default := by
  induction es with
  | nil =>
    intro v w h _
    rw [applyVarGo] at h
    cases h
    rfl
  | cons e0 rest ih =>
    obtain ⟨k0, val0⟩ := e0
    intro v w h hall
    rw [applyVarGo] at h
    cases hstep : stepVar reg v0 v k0 val0 with
    | error e2 =>
      rw [hstep] at h
      have h2 : (Except.error e2 : Except String VarM) = .ok w := h
      cases h2
    | ok v1 =>
      rw [hstep] at h
      have h2 : applyVarGo reg v0 v1 rest = .ok w := h
      obtain ⟨hv0, hd0⟩ := hall (k0, val0) (List.mem_cons_self _ _)
      have hfr := stepVar_frame reg v0 v v1 k0 val0 hstep hv0
      rw [ih v1 w h2 (fun e he => hall e (List.mem_cons_of_mem _ he))]
      exact hfr.2.2.2.1 hd0

/-- A successful loop containing an `items` entry certifies that the
value computed at entry was iterable. -/
theorem applyVarGo_iterable (reg : List String) (v0 : PVal)
    (es : List (String × PVal)) :
    ∀ v w : VarM, applyVarGo reg v0 v es = .ok w →
    (alookup es "items").isSome = true →
    iterableV v0 = true := by
  induction es with
  | nil =>
    intro v w _ hsome
    simp [alookup] at hsome
  | cons e0 rest ih =>
    obtain ⟨k0, val0⟩ := e0
    intro v w h hsome
    rw [applyVarGo] at h
    cases hstep : stepVar reg v0 v k0 val0 with
    | error e2 =>
      rw [hstep] at h
      have h2 : (Except.error e2 : Except String VarM) = .ok w := h
      cases h2
    | ok v1 =>
      rw [hstep] at h
      have h2 : applyVarGo reg v0 v1 rest = .ok w := h
      by_cases hk : k0 = "items"
      · rw [stepVar, if_pos hk] at hstep
        by_cases hi : iterableV v0 = true
        · exact hi
        · rw [if_neg hi] at hstep
          cases hstep
      · rw [alookup, if_neg hk] at hsome
        exact ih v1 w h2 hsome

/-- Re-running `Var.applyDefinition` with the same well-formed
definitions dict is a no-op. -/
theorem applyVarDefs_rerun (reg : List String) (es : List (String × PVal))
    (v w : VarM) (hwf : defsWFL es = true)
    (h : applyVarDefs reg v es = .ok w) :
    applyVarDefs reg w es = .ok w := by
  rw [applyVarDefs] at h ⊢
  rw [defsWFL] at hwf
  simp only [Bool.and_eq_true] at hwf
  obtain ⟨⟨⟨⟨⟨hU, hV⟩, hO⟩, hMix⟩, hID⟩, hE⟩ := hwf
  have hVm : ∀ e ∈ es, e.1 ≠ "value" :=
    alookup_none_mem es "value" (Option.isNone_iff_eq_none.mp hV)
  have hOm : ∀ e ∈ es, e.1 ≠ "original" :=
    alookup_none_mem es "original" (Option.isNone_iff_eq_none.mp hO)
  have hiter : (alookup es "items").isSome = true →
      iterableV w.getValue = true := by
    intro hsome
    have hDnone : alookup es "default" = Option.none := by
      cases hd : alookup es "default" with
      | none => rfl
      | some x =>
        rw [hsome, hd] at hID
        simp at hID
    have hDm : ∀ e ∈ es, e.1 ≠ "default" :=
      alookup_none_mem es "default" hDnone
    have hval := applyVarGo_value_frame reg v.getValue es v w h hVm
    have hdef := applyVarGo_default_frame reg v.getValue es v w h
      (fun e he => ⟨hVm e he, hDm e he⟩)
    have hgv : w.getValue = v.getValue := by
      rw [VarM.getValue, VarM.getValue, hval, hdef]
    rw [hgv]
    exact applyVarGo_iterable reg v.getValue es v w h hsome
  have hpost := applyVarGo_post_all reg v.getValue w.getValue es v w h hU
    (fun e he => ⟨hVm e he, hOm e he⟩) hiter
  exact applyVarGo_of_cond reg w.getValue es w
    (fun e he => ⟨hVm e he, hpost e he⟩)

/-! ### `Sect.applyDefinition`: frame and fixed-point facts -/

/-- Applying an empty definitions dict only (re)writes a `Sect`'s
stored `_defs`. -/
theorem applyNodeF_nil (reg : List String) (fuel : Nat) (hf : 1 ≤ fuel)
    (t : SNode) : applyNodeF reg fuel t [] = .ok (dfReset t) := by
  cases fuel with
  | zero => omega
  | succ f => cases t <;> rfl

/-- Freshly built nodes carry empty stored `_defs`. -/
theorem buildNode_dfReset (reg : List String) (ms : Bool) (v : PVal)
    (c : SNode) (h : buildNode reg ms v = .ok c) : dfReset c = c := by
  cases v with
  | dict es =>
    rw [buildNode] at h
    cases hb : buildChildren reg es with
    | error e => rw [hb] at h; cases h
    | ok ch => rw [hb] at h; cases h; rfl
  | list xs =>
    rw [buildNode] at h
    cases hb : buildList reg 0 xs with
    | error e => rw [hb] at h; cases h
    | ok ch => rw [hb] at h; cases h; rfl
  | null =>
    rw [buildNode] at h <;> try (intro _ hx; cases hx)
    cases hb : varInit reg PVal.null ms with
    | error e => rw [hb] at h; cases h
    | ok vr => rw [hb] at h; cases h; rfl
  | none =>
    rw [buildNode] at h <;> try (intro _ hx; cases hx)
    cases hb : varInit reg PVal.none ms with
    | error e => rw [hb] at h; cases h
    | ok vr => rw [hb] at h; cases h; rfl
  | bool b =>
    rw [buildNode] at h <;> try (intro _ hx; cases hx)
    cases hb : varInit reg (PVal.bool b) ms with
    | error e => rw [hb] at h; cases h
    | ok vr => rw [hb] at h; cases h; rfl
  | int n =>
    rw [buildNode] at h <;> try (intro _ hx; cases hx)
    cases hb : varInit reg (PVal.int n) ms with
    | error e => rw [hb] at h; cases h
    | ok vr => rw [hb] at h; cases h; rfl
  | str s =>
    rw [buildNode] at h <;> try (intro _ hx; cases hx)
    cases hb : varInit reg (PVal.str s) ms with
    | error e => rw [hb] at h; cases h
    | ok vr => rw [hb] at h; cases h; rfl
  | pyType t2 =>
    rw [buildNode] at h <;> try (intro _ hx; cases hx)
    cases hb : varInit reg (PVal.pyType t2) ms with
    | error e => rw [hb] at h; cases h
    | ok vr => rw [hb] at h; cases h; rfl
  | fnTok n =>
    rw [buildNode] at h <;> try (intro _ hx; cases hx)
    cases hb : varInit reg (PVal.fnTok n) ms with
    | error e => rw [hb] at h; cases h
    | ok vr => rw [hb] at h; cases h; rfl

/-- A well-formed definitions dict stays well-formed when an entry is
dropped from the front. -/
theorem defsWFL_tail (k : String) (v : PVal) (rest : List (String × PVal))
    (h : defsWFL ((k, v) :: rest) = true) : defsWFL rest = true := by
  rw [defsWFL] at h ⊢
  simp only [Bool.and_eq_true] at h ⊢
  obtain ⟨⟨⟨⟨⟨hU, hV⟩, hO⟩, hMix⟩, hID⟩, hE⟩ := h
  rw [keysUniq] at hU
  simp only [Bool.and_eq_true] at hU
  have hVr : (alookup rest "value").isNone = true := by
    rw [alookup] at hV
    by_cases hk : k = "value"
    · rw [if_pos hk] at hV; simp at hV
    · rwa [if_neg hk] at hV
  have hOr : (alookup rest "original").isNone = true := by
    rw [alookup] at hO
    by_cases hk : k = "original"
    · rw [if_pos hk] at hO; simp at hO
    · rwa [if_neg hk] at hO
  have hlift : ∀ key2 : String, (alookup rest key2).isSome = true →
      (alookup ((k, v) :: rest) key2).isSome = true := by
    intro key2 hr
    rw [alookup]
    by_cases hk : k = key2
    · rw [if_pos hk]; rfl
    · rw [if_neg hk]; exact hr
  have hMixr : (!((rest.any fun p => isDotKey p.1) &&
      (alookup rest "items").isSome)) = true := by
    cases hb1 : (rest.any fun p => isDotKey p.1) with
    | false => simp
    | true =>
      cases hb2 : (alookup rest "items").isSome with
      | false => simp [hb2]
      | true =>
        exfalso
        have h1 : (((k, v) :: rest).any fun p => isDotKey p.1) = true := by
          simp only [List.any_cons, Bool.or_eq_true]
          exact Or.inr hb1
        rw [h1, hlift "items" hb2] at hMix
        simp at hMix
  have hIDr : (!((alookup rest "items").isSome &&
      (alookup rest "default").isSome)) = true := by
    cases hb1 : (alookup rest "items").isSome with
    | false => simp [hb1]
    | true =>
      cases hb2 : (alookup rest "default").isSome with
      | false => simp [hb2]
      | true =>
        exfalso
        rw [hlift "items" hb1, hlift "default" hb2] at hID
        simp at hID
  have hEr : defsWFEntries rest = true := by
    rw [defsWFEntries] at hE
    exact ((Bool.and_eq_true _ _).mp hE).2
  exact ⟨⟨⟨⟨⟨hU.2, hVr⟩, hOr⟩, hMixr⟩, hIDr⟩, hEr⟩

/-- Dot-key and `items` entries of a well-formed definitions dict
carry well-formed definitions dicts. -/
theorem defsWFEntries_mem (es : List (String × PVal))
    (h : defsWFEntries es = true) :
    ∀ k v, (k, v) ∈ es → (isDotKey k = true ∨ k = "items") →
    defsWF v = true := by
  induction es with
  | nil =>
    intro k v hm _
    cases hm
  | cons e rest ih =>
    obtain ⟨k0, v0⟩ := e
    intro k v hm hcond
    rw [defsWFEntries] at h
    simp only [Bool.and_eq_true] at h
    rcases List.mem_cons.mp hm with h0 | hmem
    · cases h0
      rcases hcond with hd | hi
      · rw [if_pos (by simp [hd])] at h
        exact h.1
      · rw [if_pos (by simp [hi])] at h
        exact h.1
    · exact ih h.2 k v hmem hcond

/-- A well-formed definitions value is a dict with well-formed
entries. -/
theorem defsWF_dict (v : PVal) (h : defsWF v = true) :
    ∃ es2, asDict v = some es2 ∧ defsWFL es2 = true := by
  cases v with
  | dict es =>
    rw [defsWF] at h
    exact ⟨es, rfl, h⟩
  | null =>
    rw [defsWF] at h <;> try (intro _ hx; cases hx)
    cases h
  | none =>
    rw [defsWF] at h <;> try (intro _ hx; cases hx)
    cases h
  | bool b =>
    rw [defsWF] at h <;> try (intro _ hx; cases hx)
    cases h
  | int n =>
    rw [defsWF] at h <;> try (intro _ hx; cases hx)
    cases h
  | str s =>
    rw [defsWF] at h <;> try (intro _ hx; cases hx)
    cases h
  | list xs =>
    rw [defsWF] at h <;> try (intro _ hx; cases hx)
    cases h
  | pyType t =>
    rw [defsWF] at h <;> try (intro _ hx; cases hx)
    cases h
  | fnTok n =>
    rw [defsWF] at h <;> try (intro _ hx; cases hx)
    cases h

/-- Depth never grows when entries are dropped from the front. -/
theorem defsDepthL_tail_le (k : String) (v : PVal)
    (rest : List (String × PVal)) :
    defsDepthL rest ≤ defsDepthL ((k, v) :: rest) := by
  rw [defsDepthL]
  exact le_max_right _ _

/-- A dot-key or `items` entry's definitions dict sits strictly below
the dict that contains it. -/
theorem defsDepthL_entry (es : List (String × PVal)) :
    ∀ k v es2, (k, v) ∈ es → (isDotKey k = true ∨ k = "items") →
    asDict v = some es2 → defsDepthL es2 < defsDepthL es := by
  induction es with
  | nil =>
    intro k v es2 hm _ _
    cases hm
  | cons e rest ih =>
    obtain ⟨k0, v0⟩ := e
    intro k v es2 hm hcond hdict
    rcases List.mem_cons.mp hm with h0 | hmem
    · cases h0
      rw [defsDepthL]
      have hval : v0 = PVal.dict es2 := by
        cases v0 <;> first | (cases hdict; rfl) | cases hdict
      have hif : (if isDotKey k0 || k0 = "items" then defsDepth v0 + 1
          else 0) = defsDepth v0 + 1 := by
        rcases hcond with hd | hi
        · rw [if_pos (by simp [hd])]
        · rw [if_pos (by simp [hi])]
      rw [hif, hval]
      have : defsDepth (PVal.dict es2) = defsDepthL es2 := by rw [defsDepth]
      rw [this]
      exact lt_of_lt_of_le (Nat.lt_succ_self _) (le_max_left _ _)
    · exact lt_of_lt_of_le (ih k v es2 hmem hcond hdict)
        (defsDepthL_tail_le k0 v0 rest)

/-- A dict with a dot-key entry has positive depth. -/
theorem defsDepthL_pos_of_dot (es : List (String × PVal)) :
    ∀ k v, (k, v) ∈ es → isDotKey k = true → 1 ≤ defsDepthL es := by
  induction es with
  | nil =>
    intro k v hm _
    cases hm
  | cons e rest ih =>
    obtain ⟨k0, v0⟩ := e
    intro k v hm hdot
    rcases List.mem_cons.mp hm with h0 | hmem
    · cases h0
      rw [defsDepthL, if_pos (by simp [hdot])]
      exact le_trans (Nat.le_add_left 1 _) (le_max_left _ _)
    · exact le_trans (ih k v hmem hdot) (defsDepthL_tail_le k0 v0 rest)

/-- With an `items` entry present, a well-formed definitions dict has
no dot keys. -/
theorem defsWFL_no_dot_of_items (es : List (String × PVal))
    (h : defsWFL es = true)
    (hsome : (alookup es "items").isSome = true) :
    ∀ e ∈ es, isDotKey e.1 = false := by
  rw [defsWFL] at h
  simp only [Bool.and_eq_true] at h
  obtain ⟨⟨⟨⟨⟨hU, hV⟩, hO⟩, hMix⟩, hID⟩, hE⟩ := h
  intro e he
  cases hd : isDotKey e.1 with
  | false => rfl
  | true =>
    exfalso
    have hany : (es.any fun p => isDotKey p.1) = true := by
      rw [List.any_eq_true]
      exact ⟨e, he, hd⟩
    rw [hany, hsome] at hMix
    simp at hMix

/-- With a dot-key entry present, a well-formed definitions dict has
no `items` entry. -/
theorem defsWFL_no_items_of_dot (es : List (String × PVal))
    (h : defsWFL es = true) (k : String) (v : PVal) (hmem : (k, v) ∈ es)
    (hdot : isDotKey k = true) :
    ∀ e ∈ es, e.1 ≠ "items" := by
  rw [defsWFL] at h
  simp only [Bool.and_eq_true] at h
  obtain ⟨⟨⟨⟨⟨hU, hV⟩, hO⟩, hMix⟩, hID⟩, hE⟩ := h
  have hany : (es.any fun p => isDotKey p.1) = true := by
    rw [List.any_eq_true]
    exact ⟨(k, v), hmem, hdot⟩
  rw [hany] at hMix
  have hnone : alookup es "items" = Option.none := by
    cases hi : alookup es "items" with
    | none => rfl
    | some x =>
      rw [hi] at hMix
      simp at hMix
  exact alookup_none_mem es "items" hnone

/-- Entries that are neither dot keys nor `items` leave the loop
state untouched. -/
theorem sectGo_skip (reg : List String)
    (applyN : SNode → List (String × PVal) → Except String SNode)
    (rem : List (String × PVal)) :
    (∀ e ∈ rem, isDotKey e.1 = false ∧ e.1 ≠ "items") →
    ∀ ty ch, sectGo reg applyN ty ch rem = .ok (ty, ch) := by
  induction rem with
  | nil =>
    intro _ ty ch
    rw [sectGo]
  | cons e rest ih =>
    obtain ⟨key, val⟩ := e
    intro hall ty ch
    obtain ⟨hd, hi⟩ := hall (key, val) (List.mem_cons_self _ _)
    rw [sectGo, if_neg (by simp [hd]), if_neg hi]
    exact ih (fun e he => hall e (List.mem_cons_of_mem _ he)) ty ch


/-- What a successful dot-key step did: other children are untouched,
and the entry's child is the result of applying the entry's
definitions to the old child, or of synthesis (plus application when
the definitions are non-empty) when the child was missing. -/
theorem dotStep_inv (reg : List String)
    (applyN : SNode → List (String × PVal) → Except String SNode)
    (ty : String) (ch : List (String × SNode)) (key : String)
    (es : List (String × PVal)) (ty2 : String)
    (ch2 : List (String × SNode))
    (h : dotStep reg applyN ty ch key es = .ok (ty2, ch2)) :
    (∀ k, k ≠ dropDot key → alookup ch2 k = alookup ch k) ∧
    ∃ c2, alookup ch2 (dropDot key) = some c2 ∧
      ((∃ child, alookup ch (dropDot key) = some child ∧
          applyN child es = .ok c2) ∨
        (alookup ch (dropDot key) = Option.none ∧
          ∃ child0 isList v0, synthValue es = .ok (isList, v0) ∧
            buildNode reg true v0 = .ok child0 ∧
            (if es.isEmpty then Except.ok child0 else applyN child0 es) =
              .ok c2)) := by
  rw [dotStep] at h
  split at h
  next child hlk =>
    cases hap : applyN child es with
    | error e2 =>
      rw [hap] at h
      simp only [Except.map] at h
      cases h
    | ok c2 =>
      rw [hap] at h
      simp only [Except.map] at h
      cases h
      exact ⟨fun k hk => alookup_upsert_ne _ _ _ _ (Ne.symm hk), c2,
        alookup_upsert_self _ _ _, Or.inl ⟨child, hlk, hap⟩⟩
  next hlk =>
    rw [dotCreate] at h
    split at h
    next e2 hsv => cases h
    next isL v0 hsv =>
      split at h
      next e2 hbn => cases h
      next child0 hbn =>
        cases hite : (if es.isEmpty then Except.ok child0
            else applyN child0 es) with
        | error e2 =>
          rw [hite] at h
          simp only [Except.map] at h
          cases h
        | ok c2 =>
          rw [hite] at h
          simp only [Except.map] at h
          cases h
          refine ⟨fun k hk => alookup_append_ne _ _ _ _ (Ne.symm hk), c2,
            ?_, Or.inr ⟨hlk, child0, isL, v0, hsv, hbn, hite⟩⟩
          rw [alookup_append_none ch _ _ hlk]
          rw [alookup]
          rw [if_pos rfl]

/-- Keys not assigned by the remaining entries keep their child, and
the loop never removes keys. -/
theorem sectGo_frame (reg : List String)
    (applyN : SNode → List (String × PVal) → Except String SNode)
    (rem : List (String × PVal)) :
    ∀ ty ch ty2 ch2,
    sectGo reg applyN ty ch rem = .ok (ty2, ch2) →
    ∀ k : String,
    (∀ e ∈ rem, isDotKey e.1 = true → dropDot e.1 ≠ k) →
    (∀ e ∈ rem, e.1 ≠ "items") →
    alookup ch2 k = alookup ch k := by
  induction rem with
  | nil =>
    intro ty ch ty2 ch2 h k _ _
    rw [sectGo] at h
    cases h
    rfl
  | cons e rest ih =>
    obtain ⟨key, val⟩ := e
    intro ty ch ty2 ch2 h k hdots hitems
    rw [sectGo] at h
    by_cases hdot : isDotKey key = true
    · rw [if_pos hdot] at h
      have hdk : dropDot key ≠ k :=
        hdots (key, val) (List.mem_cons_self _ _) hdot
      split at h
      next es hd2 =>
        split at h
        next ty3 ch3 hstep =>
          obtain ⟨hframe, _⟩ := dotStep_inv reg applyN ty ch key es ty3 ch3
            hstep
          rw [ih ty3 ch3 ty2 ch2 h k
            (fun e he hd => hdots e (List.mem_cons_of_mem _ he) hd)
            (fun e he => hitems e (List.mem_cons_of_mem _ he))]
          exact hframe k (fun hk => hdk hk.symm)
        next e2 hstep => cases h
      next hd2 => cases h
    · rw [if_neg hdot] at h
      have hii : key ≠ "items" := hitems (key, val) (List.mem_cons_self _ _)
      rw [if_neg hii] at h
      exact ih ty ch ty2 ch2 h k
        (fun e he hd => hdots e (List.mem_cons_of_mem _ he) hd)
        (fun e he => hitems e (List.mem_cons_of_mem _ he))

/-- Re-running a pointwise-rerunnable application over all children
is a no-op. -/
theorem childrenApply_rerun (f : SNode → Except String SNode)
    (hf : ∀ c c2, f c = .ok c2 → f c2 = .ok c2) :
    ∀ ch ch2, childrenApply f ch = .ok ch2 →
    childrenApply f ch2 = .ok ch2 := by
  intro ch
  induction ch with
  | nil =>
    intro ch2 h
    rw [childrenApply] at h
    cases h
    rw [childrenApply]
  | cons e rest ih =>
    obtain ⟨k, c⟩ := e
    intro ch2 h
    rw [childrenApply] at h
    split at h
    next c2 hc1 =>
      split at h
      next r2 hr =>
        cases h
        rw [childrenApply, hf c c2 hc1, ih r2 hr]
      next e2 hr => cases h
    next e2 hc1 => cases h

/-- One definitions entry is "fixed" at a children list when
re-running it there changes nothing. -/
def entryFixed (applyN : SNode → List (String × PVal) → Except String SNode)
    (ch2 : List (String × SNode)) (key : String) (val : PVal) : Prop :=
  if isDotKey key then
    ∃ es c2, asDict val = some es ∧ alookup ch2 (dropDot key) = some c2 ∧
      applyN c2 es = .ok c2
  else if key = "items" then
    ∃ es, asDict val = some es ∧
      childrenApply (fun c => applyN c es) ch2 = .ok ch2
  else True

/-- If every entry is fixed at a children list, the whole entry loop
leaves the state unchanged. -/
theorem sectGo_refix (reg : List String)
    (applyN : SNode → List (String × PVal) → Except String SNode)
    (rem : List (String × PVal)) :
    ∀ ty2 ch2, (∀ e ∈ rem, entryFixed applyN ch2 e.1 e.2) →
    sectGo reg applyN ty2 ch2 rem = .ok (ty2, ch2) := by
  induction rem with
  | nil =>
    intro ty2 ch2 _
    rw [sectGo]
  | cons e rest ih =>
    obtain ⟨key, val⟩ := e
    intro ty2 ch2 hall
    have hhead := hall (key, val) (List.mem_cons_self _ _)
    rw [entryFixed] at hhead
    by_cases hdot : isDotKey key = true
    · rw [if_pos hdot] at hhead
      obtain ⟨es, c2, hd2, hlk, hfix⟩ := hhead
      have hds : dotStep reg applyN ty2 ch2 key es = .ok (ty2, ch2) := by
        rw [dotStep, hlk]
        show (applyN c2 es).map
            (fun c3 => (ty2, upsert ch2 (dropDot key) c3)) =
            Except.ok (ty2, ch2)
        rw [hfix]
        simp only [Except.map]
        rw [upsert_id _ _ _ hlk]
      rw [sectGo, if_pos hdot, hd2]
      show (match dotStep reg applyN ty2 ch2 key es with
        | .ok (ty3, ch3) => sectGo reg applyN ty3 ch3 rest
        | .error e => .error e) = .ok (ty2, ch2)
      rw [hds]
      exact ih ty2 ch2 (fun e he => hall e (List.mem_cons_of_mem _ he))
    · rw [if_neg hdot] at hhead
      by_cases hit : key = "items"
      · rw [if_pos hit] at hhead
        obtain ⟨es, hd2, hfix⟩ := hhead
        rw [sectGo, if_neg hdot, if_pos hit, hd2]
        show (match childrenApply (fun c => applyN c es) ch2 with
          | .ok ch3 => sectGo reg applyN ty2 ch3 rest
          | .error e => .error e) = .ok (ty2, ch2)
        rw [hfix]
        exact ih ty2 ch2 (fun e he => hall e (List.mem_cons_of_mem _ he))
      · rw [sectGo, if_neg hdot, if_neg hit]
        exact ih ty2 ch2 (fun e he => hall e (List.mem_cons_of_mem _ he))

/-- The dot/`items` exclusion survives dropping the first entry. -/
theorem mixB_tail (k : String) (v : PVal) (rest : List (String × PVal))
    (hMix : (!((((k, v) :: rest).any fun p => isDotKey p.1) &&
      (alookup ((k, v) :: rest) "items").isSome)) = true) :
    (!((rest.any fun p => isDotKey p.1) &&
      (alookup rest "items").isSome)) = true := by
  cases hb1 : (rest.any fun p => isDotKey p.1) with
  | false => simp
  | true =>
    cases hb2 : (alookup rest "items").isSome with
    | false => simp [hb2]
    | true =>
      exfalso
      have h1 : (((k, v) :: rest).any fun p => isDotKey p.1) = true := by
        simp only [List.any_cons, Bool.or_eq_true]
        exact Or.inr hb1
      have h2 : (alookup ((k, v) :: rest) "items").isSome = true := by
        rw [alookup]
        by_cases hk : k = "items"
        · rw [if_pos hk]; rfl
        · rw [if_neg hk]; exact hb2
      rw [h1, h2] at hMix
      simp at hMix

/-- After a successful entry loop, every entry is fixed at the final
children list (`applyN` rerunnable below the depth bound, unique
keys, well-formed entry values, dot/`items` exclusion). -/
theorem sectGo_post_all (reg : List String)
    (applyN : SNode → List (String × PVal) → Except String SNode)
    (B : Nat)
    (hA : ∀ t es w, defsWFL es = true → defsDepthL es < B →
      applyN t es = .ok w → applyN w es = .ok w)
    (hN : 1 ≤ B → ∀ t, applyN t [] = .ok (dfReset t)) :
    ∀ (rem : List (String × PVal)) (ty : String)
    (ch : List (String × SNode)) (ty2 : String)
    (ch2 : List (String × SNode)),
    sectGo reg applyN ty ch rem = .ok (ty2, ch2) →
    keysUniq rem = true →
    defsWFEntries rem = true →
    defsDepthL rem ≤ B →
    (!((rem.any fun p => isDotKey p.1) &&
      (alookup rem "items").isSome)) = true →
    ∀ e ∈ rem, entryFixed applyN ch2 e.1 e.2 := by
  intro rem
  induction rem with
  | nil =>
    intro ty ch ty2 ch2 _ _ _ _ _ e hm
    cases hm
  | cons e0 rest ih =>
    obtain ⟨key0, val0⟩ := e0
    intro ty ch ty2 ch2 h hU hE hD hMix e hm
    obtain ⟨key, val⟩ := e
    simp only []
    rw [keysUniq] at hU
    simp only [Bool.and_eq_true] at hU
    obtain ⟨hU1, hU2⟩ := hU
    rw [defsWFEntries] at hE
    simp only [Bool.and_eq_true] at hE
    obtain ⟨hE1, hE2⟩ := hE
    have hDr : defsDepthL rest ≤ B :=
      le_trans (defsDepthL_tail_le key0 val0 rest) hD
    have hMixr := mixB_tail key0 val0 rest hMix
    rw [sectGo] at h
    by_cases hdot : isDotKey key0 = true
    · rw [if_pos hdot] at h
      split at h
      next es hd2 =>
        split at h
        next ty3 ch3 hstep =>
          have hwfes : defsWFL es = true := by
            have hwf0 : defsWF val0 = true := by
              rw [if_pos (by simp [hdot])] at hE1
              exact hE1
            obtain ⟨es2, hd2b, hwf2⟩ := defsWF_dict val0 hwf0
            rw [hd2] at hd2b
            cases hd2b
            exact hwf2
          have hdes : defsDepthL es < B := by
            refine lt_of_lt_of_le ?_ hD
            exact defsDepthL_entry _ key0 val0 es
              (List.mem_cons_self _ _) (Or.inl hdot) hd2
          have hB1 : 1 ≤ B :=
            le_trans (defsDepthL_pos_of_dot _ key0 val0
              (List.mem_cons_self _ _) hdot) hD
          have hrestdots : ∀ e ∈ rest, isDotKey e.1 = true →
              dropDot e.1 ≠ dropDot key0 := by
            intro e he hde hdd
            have : e.1 = key0 := dropDot_inj e.1 key0 hde hdot hdd
            exact alookup_none_mem rest key0
              (Option.isNone_iff_eq_none.mp hU1) e he this
          have hremitems : ∀ e ∈ ((key0, val0) :: rest), e.1 ≠ "items" := by
            have hany : (((key0, val0) :: rest).any
                fun p => isDotKey p.1) = true := by
              simp only [List.any_cons, Bool.or_eq_true]
              exact Or.inl hdot
            rw [hany] at hMix
            have hnone : alookup ((key0, val0) :: rest) "items" =
                Option.none := by
              cases hi : alookup ((key0, val0) :: rest) "items" with
              | none => rfl
              | some x =>
                rw [hi] at hMix
                simp at hMix
            exact alookup_none_mem _ "items" hnone
          have hrestitems : ∀ e ∈ rest, e.1 ≠ "items" :=
            fun e he => hremitems e (List.mem_cons_of_mem _ he)
          obtain ⟨hframe, c2, hlk3, hcase⟩ :=
            dotStep_inv reg applyN ty ch key0 es ty3 ch3 hstep
          rcases List.mem_cons.mp hm with h0 | hmem
          · cases h0
            rw [entryFixed, if_pos hdot]
            refine ⟨es, c2, hd2, ?_, ?_⟩
            · rw [sectGo_frame reg applyN rest ty3 ch3 ty2 ch2 h
                (dropDot key0) hrestdots hrestitems]
              exact hlk3
            · rcases hcase with ⟨child, _, hap⟩ | hcreate
              · exact hA child es c2 hwfes hdes hap
              · obtain ⟨_, child0, isL, v0, _, hbn, hite⟩ := hcreate
                cases hes : es.isEmpty with
                | true =>
                  have hesnil : es = [] := by
                    cases es with
                    | nil => rfl
                    | cons x xs => cases hes
                  rw [if_pos (by rw [hes])] at hite
                  have hc2 : c2 = child0 := by cases hite; rfl
                  subst hesnil
                  rw [hN hB1 c2]
                  rw [hc2, buildNode_dfReset reg true v0 child0 hbn]
                | false =>
                  rw [if_neg (by simp [hes])] at hite
                  exact hA child0 es c2 hwfes hdes hite
          · exact ih ty3 ch3 ty2 ch2 h hU2 hE2 hDr hMixr (key, val) hmem
        next e2 hstep => cases h
      next hd2 => cases h
    · rw [if_neg hdot] at h
      by_cases hit : key0 = "items"
      · rw [if_pos hit] at h
        split at h
        next es hd2 =>
          split at h
          next ch3 hca =>
            have hwfes : defsWFL es = true := by
              have hwf0 : defsWF val0 = true := by
                rw [if_pos (by simp [hit])] at hE1
                exact hE1
              obtain ⟨es2, hd2b, hwf2⟩ := defsWF_dict val0 hwf0
              rw [hd2] at hd2b
              cases hd2b
              exact hwf2
            have hdes : defsDepthL es < B := by
              refine lt_of_lt_of_le ?_ hD
              exact defsDepthL_entry _ key0 val0 es
                (List.mem_cons_self _ _) (Or.inr hit) hd2
            have hsomem : (alookup ((key0, val0) :: rest) "items").isSome =
                true := by
              rw [alookup, if_pos hit]
              rfl
            have hnodots : ∀ e ∈ ((key0, val0) :: rest),
                isDotKey e.1 = false := by
              intro e he
              cases hd : isDotKey e.1 with
              | false => rfl
              | true =>
                exfalso
                have hany : (((key0, val0) :: rest).any
                    fun p => isDotKey p.1) = true := by
                  rw [List.any_eq_true]
                  exact ⟨e, he, hd⟩
                rw [hany, hsomem] at hMix
                simp at hMix
            have hrestitems : ∀ e ∈ rest, e.1 ≠ "items" := by
              intro e he
              have hne := alookup_none_mem rest key0
                (Option.isNone_iff_eq_none.mp hU1) e he
              rw [hit] at hne
              exact hne
            have hrestskip : ∀ e ∈ rest, isDotKey e.1 = false ∧
                e.1 ≠ "items" :=
              fun e he => ⟨hnodots e (List.mem_cons_of_mem _ he),
                hrestitems e he⟩
            have hskip := sectGo_skip reg applyN rest hrestskip ty ch3
            have heq := h.symm.trans hskip
            injection heq with heq2
            rw [Prod.mk.injEq] at heq2
            obtain ⟨hty, hch⟩ := heq2
            rcases List.mem_cons.mp hm with h0 | hmem
            · cases h0
              rw [entryFixed, if_neg hdot, if_pos hit]
              refine ⟨es, hd2, ?_⟩
              rw [hch]
              exact childrenApply_rerun _
                (fun c c2 hcc => hA c es c2 hwfes hdes hcc) ch ch3 hca
            · rw [entryFixed,
                if_neg (by simp [hnodots (key, val)
                  (List.mem_cons_of_mem _ hmem)]),
                if_neg (hrestitems (key, val) hmem)]
              trivial
          next e2 hca => cases h
        next hd2 => cases h
      · rw [if_neg hit] at h
        rcases List.mem_cons.mp hm with h0 | hmem
        · cases h0
          rw [entryFixed, if_neg hdot, if_neg hit]
          trivial
        · exact ih ty ch ty2 ch2 h hU2 hE2 hDr hMixr (key, val) hmem

/-- Re-running `applyDefinition` (at any fuel above the definitions'
nesting depth) with the same well-formed definitions dict is a
no-op on the resulting node. -/
theorem applyNodeF_rerun (reg : List String) :
    ∀ (fuel : Nat) (t : SNode) (es : List (String × PVal)) (w : SNode),
    defsWFL es = true → defsDepthL es < fuel →
    applyNodeF reg fuel t es = .ok w → applyNodeF reg fuel w es = .ok w := by
  intro fuel
  induction fuel with
  | zero =>
    intro t es w _ hd _
    omega
  | succ f ih =>
    intro t es w hwf hd h
    cases t with
    | var v =>
      have h' : (match applyVarDefs reg v es with
          | .ok v2 => Except.ok (SNode.var v2)
          | .error e => (.error e : Except String SNode)) = .ok w := h
      clear h
      split at h'
      next v2 hv2 =>
        cases h'
        have hgoal : (match applyVarDefs reg v2 es with
            | .ok v3 => Except.ok (SNode.var v3)
            | .error e => (.error e : Except String SNode)) =
            .ok (SNode.var v2) := by
          rw [applyVarDefs_rerun reg es v v2 hwf hv2]
        exact hgoal
      next e2 hv2 => cases h'
    | sect ty df ms ch =>
      have h' : (match sectGo reg (applyNodeF reg f) ty ch es with
          | .ok (ty2, ch2) => Except.ok (SNode.sect ty2 (.dict es) ms ch2)
          | .error e => (.error e : Except String SNode)) = .ok w := h
      clear h
      split at h'
      next ty2 ch2 hsg =>
        cases h'
        have hwfc := hwf
        rw [defsWFL] at hwfc
        simp only [Bool.and_eq_true] at hwfc
        obtain ⟨⟨⟨⟨⟨hU, hV⟩, hO⟩, hMix⟩, hID⟩, hE⟩ := hwfc
        have hpost := sectGo_post_all reg (applyNodeF reg f) f
          (fun t2 es2 w2 hwf2 hd2 h2 => ih t2 es2 w2 hwf2 hd2 h2)
          (fun hf t2 => applyNodeF_nil reg f hf t2)
          es ty ch ty2 ch2 hsg hU hE (Nat.lt_succ_iff.mp hd) hMix
        have hgoal : (match sectGo reg (applyNodeF reg f) ty2 ch2 es with
            | .ok (ty3, ch3) => Except.ok (SNode.sect ty3 (.dict es) ms ch3)
            | .error e => (.error e : Except String SNode)) =
            .ok (SNode.sect ty2 (.dict es) ms ch2) := by
          rw [sectGo_refix reg (applyNodeF reg f) es ty2 ch2 hpost]
        exact hgoal
      next e2 hsg => cases h'


/-- C5 counterexample: the definitions
`{items: {required: true}, .x: {}}` applied to an empty section
create `x` after the `items` entry has already run, so the second
application reaches `x` with `items` and flips its `required`
metadata — the two trees differ. -/
theorem definitions_reapply_counterexample :
    (applyNodeDefs [] (.sect "Dict" (.dict []) false [])
        [("items", .dict [("required", .bool true)]), (".x", .dict [])]).map
      (fun w => childRequired w "x") = .ok (some (.bool false)) ∧
    ((applyNodeDefs [] (.sect "Dict" (.dict []) false [])
        [("items", .dict [("required", .bool true)]), (".x", .dict [])]).bind
      (fun w => applyNodeDefs [] w
        [("items", .dict [("required", .bool true)]), (".x", .dict [])])).map
      (fun w => childRequired w "x") = .ok (some (.bool true)) :=
  ⟨rfl, rfl⟩

/-- C5 (amended): applying a definitions object twice in sequence
equals applying it once, provided the definitions dict is
well-formed: unique keys at every level, no direct `value`/`original`
assignment, dot-child keys never mixed with `items` at one level, and
`items` never combined with `default`. -/
theorem definitions_apply_idempotent_wf (reg : List String)
    (defs : List (String × PVal)) (t w : SNode)
    (hwf : defsWFL defs = true)
    (h : applyNodeDefs reg t defs = .ok w) :
    applyNodeDefs reg w defs = .ok w := by
  rw [applyNodeDefs] at h ⊢
  exact applyNodeF_rerun reg (defsDepthL defs + 1) t defs w hwf
    (Nat.lt_succ_self _) h

/-- Witness for C5: a schema `{.y: {dtype: int, default: 5}}` applied
to a section holding `y = 1`; the second application reproduces the
first application's tree exactly. -/
theorem definitions_apply_idempotent_wf_witness :
    defsWFL [(".y", .dict [("dtype", .str "int"), ("default", .int 5)])] =
      true ∧
    applyNodeDefs []
        (.sect "Dict" (.dict []) false [("y", .var { value := .int 1 })])
        [(".y", .dict [("dtype", .str "int"), ("default", .int 5)])] =
      .ok (.sect "Dict"
        (.dict [(".y", .dict [("dtype", .str "int"), ("default", .int 5)])])
        false
        [("y", .var { value := .int 1, original := .int 5, default := .int 5, dtype := .pyType .int })]) ∧
    applyNodeDefs []
        (.sect "Dict"
          (.dict [(".y",
            .dict [("dtype", .str "int"), ("default", .int 5)])])
          false
          [("y", .var { value := .int 1, original := .int 5, default := .int 5, dtype := .pyType .int })])
        [(".y", .dict [("dtype", .str "int"), ("default", .int 5)])] =
      .ok (.sect "Dict"
        (.dict [(".y", .dict [("dtype", .str "int"), ("default", .int 5)])])
        false
        [("y", .var { value := .int 1, original := .int 5, default := .int 5, dtype := .pyType .int })]) :=
  ⟨rfl, rfl,
    definitions_apply_idempotent_wf []
      [(".y", .dict [("dtype", .str "int"), ("default", .int 5)])]
      (.sect "Dict" (.dict []) false [("y", .var { value := .int 1 })])
      (.sect "Dict"
        (.dict [(".y", .dict [("dtype", .str "int"), ("default", .int 5)])])
        false
        [("y", .var { value := .int 1, original := .int 5, default := .int 5, dtype := .pyType .int })])
      (by rfl) (by rfl)⟩

end Mlky
